import Mathlib

/-!
# Verification of the tailwindcss-sorter core

A shallow embedding of the two text-processing stages of the repository:

* `src/tailwind/sorting.ts` — the token normalizer (`reorderClasses`,
  `sortClassList`, `sortClasses`);
* `src/matcher.ts` — the span extractor (`findMatchesForPattern`,
  `findClassFunctionMatches`, `extractBalancedContent`,
  `extractStringsFromContent`, `deduplicateMatches`, `findClassMatches`).

Strings are modelled as `List Char`, JavaScript `bigint` as `Int`,
`bigint | null` as `Option Int`.  The class-ranking oracle
(`TailwindContext.getClassOrder`) is external to the repository and is
modelled as a per-token ranking function `o : List Char → Option Int`;
`getClassOrder classList` is `classList.map (fun c => (c, o c))`, matching
the oracle contract (one entry per input token, order preserved).

`Array.prototype.sort` (stable since ES2019) is modelled as a stable
insertion sort that inserts each successive element after every element
already placed that does not compare strictly greater than it — the
behaviour of a stable comparison sort.
-/

namespace TwSorter

/-- Characters written by code point to keep the development readable. -/
def squote : Char := Char.ofNat 39

def dquote : Char := Char.ofNat 34

def bslash : Char := Char.ofNat 92

def lbrace : Char := Char.ofNat 123

def hellip : Char := Char.ofNat 8230

def lparen : Char := Char.ofNat 40

def rparen : Char := Char.ofNat 41

/-- The whitespace class `[\t\r\f\n ]` used by `sortClasses` for splitting
    (`classStr.split(/([\t\r\f\n ]+)/)`) and for the whitespace-only test
    (`/^[\t\r\f\n ]+$/`). -/
def isWsClass (c : Char) : Bool :=
  c.toNat = 9 || c.toNat = 10 || c.toNat = 12 || c.toNat = 13 || c.toNat = 32

/-- JavaScript `\s` (WhiteSpace ∪ LineTerminator): used by the `/\s+$/`,
    `/^\s+/` replacements in `sortClasses` and by `String.prototype.trim`. -/
def jsWs (c : Char) : Bool :=
  c.toNat = 9 || c.toNat = 10 || c.toNat = 11 || c.toNat = 12 || c.toNat = 13 ||
  c.toNat = 32 || c.toNat = 160 || c.toNat = 5760 ||
  (8192 ≤ c.toNat && c.toNat ≤ 8202) ||
  c.toNat = 8232 || c.toNat = 8233 || c.toNat = 8239 || c.toNat = 8287 ||
  c.toNat = 12288 || c.toNat = 65279

theorem jsWs_of_isWsClass {c : Char} (h : isWsClass c = true) : jsWs c = true := by
  simp only [isWsClass, Bool.or_eq_true, decide_eq_true_eq] at h
  simp only [jsWs, Bool.or_eq_true, decide_eq_true_eq, Bool.and_eq_true]
  omega

/-- A class token: a string, modelled as a character list. -/
abbrev Tok := List Char

/-- `bigSign` from `sorting.ts`:
    `Number(bigIntValue > 0n) - Number(bigIntValue < 0n)`. -/
def bigSign (x : Int) : Int :=
  (if 0 < x then 1 else 0) - (if x < 0 then 1 else 0)

/-- The sentinel test from the comparator in `reorderClasses`:
    `nameA === '...' || nameA === '…'`. -/
def isSentinel (t : Tok) : Bool :=
  t = ['.', '.', '.'] || t = [hellip]

/-- The comparator passed to `orderedClasses.sort` in `reorderClasses`. -/
def twCmp (p q : Tok × Option Int) : Int :=
  if isSentinel p.1 then 1
  else if isSentinel q.1 then -1
  else if p.2 = q.2 then 0
  else
    match p.2, q.2 with
    | none, _ => -1
    | _, none => 1
    | some a, some b => bigSign (a - b)

/-- One insertion step of the stable-sort model of `Array.prototype.sort`:
    `x` is placed before the first element it compares strictly less than,
    hence after every tie — the stable position for an element that occurs
    later in the original array. -/
def jsInsert (cmp : α → α → Int) (x : α) : List α → List α
  | [] => [x]
  | y :: l => if cmp x y < 0 then x :: y :: l else y :: jsInsert cmp x l

/-- Stable-sort model of `Array.prototype.sort` with comparator `cmp`. -/
def jsSort (cmp : α → α → Int) (l : List α) : List α :=
  l.foldl (fun acc x => jsInsert cmp x acc) []

/-- `reorderClasses` from `sorting.ts`: pair every class with its oracle
    rank (`context.getClassOrder`) and sort with `twCmp`.  The `logger`
    parameter only emits debug output and is omitted. -/
def reorderClasses (cl : List Tok) (o : Tok → Option Int) : List (Tok × Option Int) :=
  jsSort twCmp (cl.map (fun c => (c, o c)))

/-- The duplicate-removal filter of `sortClassList` (the
    `orderedClasses.filter` callback, carrying the `seenClasses` set and the
    running index; the JS `Set<string>` is modelled as a list with
    membership).  Returns the kept entries and the removed indices. -/
def dedupGo : List (Tok × Option Int) → List Tok → Nat → List (Tok × Option Int) × List Nat
  | [], _, _ => ([], [])
  | (c, ord) :: rest, seen, i =>
    if c ∈ seen then
      let r := dedupGo rest seen (i + 1)
      (r.1, i :: r.2)
    else
      let seen2 := if ord.isSome then c :: seen else seen
      let r := dedupGo rest seen2 (i + 1)
      ((c, ord) :: r.1, r.2)

/-- Result record of `sortClassList` (`SortClassListResult` in
    `tailwind/types.ts`; the `Set<number>` of removed indices is modelled
    as a list queried by membership). -/
structure SortClassListResult where
  classList : List Tok
  removedIndices : List Nat
deriving DecidableEq, Repr

/-- `sortClassList` from `sorting.ts`: reorder, then optionally remove
    duplicates keeping a seen-set of known-rank texts only. -/
def sortClassList (cl : List Tok) (o : Tok → Option Int) (removeDuplicates : Bool) :
    SortClassListResult :=
  let ordered := reorderClasses cl o
  if removeDuplicates then
    let r := dedupGo ordered [] 0
    ⟨r.1.map Prod.fst, r.2⟩
  else
    ⟨ordered.map Prod.fst, []⟩

/-- `classStr.includes('{{')`: does the string contain two adjacent
    left braces? -/
def containsBB : List Char → Bool
  | a :: b :: rest => (a = lbrace && b = lbrace) || containsBB (b :: rest)
  | _ => false

/-- The `collapseWhitespace` option: `boolean | { start, end }`. -/
inductive CollapseWs where
  | flag (b : Bool)
  | flags (first last : Bool)
deriving DecidableEq, Repr

/-- `collapseWhitespace === true ? { start: true, end: true } : collapseWhitespace`;
    `none` is the falsy branch (`collapseWhitespace === false`). -/
def normalizeCW : CollapseWs → Option (Bool × Bool)
  | .flag true => some (true, true)
  | .flag false => none
  | .flags a b => some (a, b)

/-- `SortOptions` from `tailwind/types.ts` (the `logger` only prints). -/
structure SortOptions where
  ignoreFirst : Bool := false
  ignoreLast : Bool := false
  removeDuplicates : Bool := true
  collapseWhitespace : CollapseWs := .flags true true
deriving DecidableEq, Repr

/-- The default options of `sortClasses` (all defaults of `SortOptions`). -/
def defaultOpts : SortOptions := {}

/-- `classStr.split(/([\t\r\f\n ]+)/)` with the separators kept:
    returns the class parts (even indices) and the whitespace runs (odd
    indices).  The class list always has one more entry than the
    whitespace list; the first class part is empty when the string starts
    with whitespace, and the last is empty when it ends with whitespace. -/
def splitCW : List Char → List Tok × List Tok
  | [] => ([[]], [])
  | c :: rest =>
    let r := splitCW rest
    if isWsClass c then
      match r with
      | ([] :: cs, w0 :: ws) => ([] :: cs, (c :: w0) :: ws)
      | (cs, ws) => ([] :: cs, [c] :: ws)
    else
      match r with
      | (h :: t, ws) => ((c :: h) :: t, ws)
      | ([], ws) => ([[c]], ws)

/-- `if (classes[classes.length - 1] === '') { classes.pop(); }`. -/
def popTrailingEmpty (cs : List Tok) : List Tok :=
  if cs.getLast? = some ([] : Tok) then cs.dropLast else cs

/-- `whitespace.filter((_, index) => !removedIndices.has(index + 1))`. -/
def wsFilterGo (rem : List Nat) : List Tok → Nat → List Tok
  | [], _ => []
  | w :: ws, i =>
    if (i + 1) ∈ rem then wsFilterGo rem ws (i + 1) else w :: wsFilterGo rem ws (i + 1)

def wsFilter (ws : List Tok) (rem : List Nat) : List Tok :=
  wsFilterGo rem ws 0

/-- The re-stitching loop: `result += classList[i] + (whitespace[i] ?? '')`. -/
def stitch : List Tok → List Tok → List Char
  | [], _ => []
  | t :: ts, ws => t ++ ws.headD [] ++ stitch ts ws.tail

/-- `str.replace(/^\s+/, rep)`: replace a non-empty leading whitespace run
    by `rep`, otherwise leave the string unchanged. -/
def trimStartJS (l rep : List Char) : List Char :=
  if l.takeWhile jsWs = [] then l else rep ++ l.dropWhile jsWs

/-- `str.replace(/\s+$/, rep)` (the `g` flag is irrelevant on an anchored
    pattern): replace a non-empty trailing whitespace run by `rep`. -/
def trimEndJS (l rep : List Char) : List Char :=
  (trimStartJS l.reverse rep.reverse).reverse

/-- `sortClasses` from `sorting.ts`, the main entry point: edge-case
    guards, tokenization, optional first/last pinning, sorting with
    optional duplicate removal, whitespace re-stitching and final
    collapsing. -/
def sortClasses (s : List Char) (o : Tok → Option Int) (opts : SortOptions) : List Char :=
  if s = [] then s
  else if containsBB s then s
  else
    let shouldCollapse := normalizeCW opts.collapseWhitespace
    if shouldCollapse.isSome && s.all isWsClass then [' ']
    else
      let p := splitCW s
      let classes1 := popTrailingEmpty p.1
      let ws1 := if shouldCollapse.isSome then p.2.map (fun _ => ([' '] : Tok)) else p.2
      let prefixT := if opts.ignoreFirst then classes1.headD [] ++ ws1.headD [] else []
      let classes2 := if opts.ignoreFirst then classes1.tail else classes1
      let ws2 := if opts.ignoreFirst then ws1.tail else ws1
      let suffixT := if opts.ignoreLast then (ws2.getLast?.getD []) ++ (classes2.getLast?.getD []) else []
      let classes3 := if opts.ignoreLast then classes2.dropLast else classes2
      let ws3 := if opts.ignoreLast then ws2.dropLast else ws2
      let r := sortClassList classes3 o opts.removeDuplicates
      let stitched := stitch r.classList (wsFilter ws3 r.removedIndices)
      match shouldCollapse with
      | none => prefixT ++ stitched ++ suffixT
      | some (st, en) =>
        trimEndJS prefixT [' '] ++
          trimEndJS (trimStartJS stitched (if st then [] else [' ']))
            (if en then [] else [' ']) ++
          trimStartJS suffixT [' ']

/-! ## Generic facts about the stable sort model -/

section JsSortLemmas

variable {α : Type} (cmp : α → α → Int)

theorem mem_jsInsert {a x : α} {l : List α} :
    a ∈ jsInsert cmp x l ↔ a = x ∨ a ∈ l := by
  induction l with
  | nil => simp [jsInsert]
  | cons y t ih =>
    simp only [jsInsert]
    split
    · simp [or_comm, or_assoc, or_left_comm]
    · simp only [List.mem_cons, ih]
      tauto

theorem jsInsert_perm (x : α) (l : List α) : (jsInsert cmp x l).Perm (x :: l) := by
  induction l with
  | nil => simp [jsInsert]
  | cons y t ih =>
    simp only [jsInsert]
    split
    · exact List.Perm.refl _
    · exact (ih.cons y).trans (List.Perm.swap x y t)

theorem jsSort_perm (l : List α) : (jsSort cmp l).Perm l := by
  suffices h : ∀ (l acc : List α),
      (l.foldl (fun acc x => jsInsert cmp x acc) acc).Perm (acc ++ l) by
    simpa using h l []
  intro l
  induction l with
  | nil => simp
  | cons x t ih =>
    intro acc
    simp only [List.foldl_cons]
    refine (ih _).trans ?_
    refine ((jsInsert_perm cmp x acc).append_right t).trans ?_
    exact List.perm_middle.symm

theorem jsInsert_append_of_forall {x : α} {l : List α}
    (h : ∀ y ∈ l, ¬ cmp x y < 0) : jsInsert cmp x l = l ++ [x] := by
  induction l with
  | nil => rfl
  | cons y t ih =>
    simp only [jsInsert]
    rw [if_neg (h y (by simp))]
    simp [ih fun z hz => h z (by simp [hz])]

/-- Sortedness invariant of `jsInsert`: an inserted element never ends up
    before something it compares greater-or-equal to, provided the
    comparator is asymmetric and strictly transitive. -/
theorem jsInsert_pairwise
    (asym : ∀ a b, cmp a b < 0 → 0 ≤ cmp b a)
    (ptrans : ∀ a b c, cmp a b < 0 → cmp b c < 0 → cmp a c < 0)
    {x : α} {l : List α} (h : l.Pairwise (fun u v => 0 ≤ cmp v u)) :
    (jsInsert cmp x l).Pairwise (fun u v => 0 ≤ cmp v u) := by
  induction l with
  | nil => simp [jsInsert]
  | cons y t ih =>
    rcases List.pairwise_cons.mp h with ⟨hy, ht⟩
    simp only [jsInsert]
    split
    · rename_i hc
      refine List.pairwise_cons.mpr ⟨?_, h⟩
      intro z hz
      rcases List.mem_cons.mp hz with rfl | hz
      · exact asym _ _ hc
      · by_contra hneg
        have hzx : cmp z x < 0 := by omega
        exact absurd (hy z hz) (by have := ptrans z x y hzx hc; omega)
    · rename_i hc
      refine List.pairwise_cons.mpr ⟨?_, ih ht⟩
      intro w hw
      rcases (mem_jsInsert cmp).mp hw with rfl | hw
      · omega
      · exact hy w hw

theorem jsSort_pairwise
    (asym : ∀ a b, cmp a b < 0 → 0 ≤ cmp b a)
    (ptrans : ∀ a b c, cmp a b < 0 → cmp b c < 0 → cmp a c < 0)
    (l : List α) :
    (jsSort cmp l).Pairwise (fun u v => 0 ≤ cmp v u) := by
  suffices h : ∀ (l acc : List α), acc.Pairwise (fun u v => 0 ≤ cmp v u) →
      (l.foldl (fun acc x => jsInsert cmp x acc) acc).Pairwise (fun u v => 0 ≤ cmp v u) by
    exact h l [] (by simp)
  intro l
  induction l with
  | nil => intro acc h; simpa using h
  | cons x t ih =>
    intro acc h
    exact ih _ (jsInsert_pairwise cmp asym ptrans h)

/-- A sorted list is a fixed point of the sort. -/
theorem jsSort_eq_self {l : List α}
    (h : l.Pairwise (fun u v => 0 ≤ cmp v u)) : jsSort cmp l = l := by
  suffices haux : ∀ (l acc : List α), (acc ++ l).Pairwise (fun u v => 0 ≤ cmp v u) →
      l.foldl (fun acc x => jsInsert cmp x acc) acc = acc ++ l by
    simpa using haux l [] (by simpa using h)
  intro l
  induction l with
  | nil => intro acc _; simp
  | cons x t ih =>
    intro acc h
    have hins : jsInsert cmp x acc = acc ++ [x] := by
      refine jsInsert_append_of_forall cmp ?_
      intro y hy
      have := (List.pairwise_append.mp h).2.2 y hy x (by simp)
      omega
    simp only [List.foldl_cons, hins]
    rw [ih (acc ++ [x]) (by simpa using h)]
    simp

/-- Stability: the elements of one tie class (all mutually comparing `0`,
    and comparing identically against everything) appear in the output in
    their original order. -/
theorem jsSort_filter
    (asym : ∀ a b, cmp a b < 0 → 0 ≤ cmp b a)
    (ptrans : ∀ a b c, cmp a b < 0 → cmp b c < 0 → cmp a c < 0)
    (p : α → Bool)
    (hp0 : ∀ a b, p a = true → p b = true → cmp a b = 0)
    (hcong : ∀ a b y, p a = true → p b = true → (cmp a y < 0 ↔ cmp b y < 0))
    (l : List α) : (jsSort cmp l).filter p = l.filter p := by
  have hins : ∀ (x : α) (acc : List α), acc.Pairwise (fun u v => 0 ≤ cmp v u) →
      (jsInsert cmp x acc).filter p =
        if p x then acc.filter p ++ [x] else acc.filter p := by
    intro x acc
    induction acc with
    | nil =>
      intro _
      by_cases hpx : p x = true <;> simp [jsInsert, List.filter, hpx]
    | cons y t ih =>
      intro h
      rcases List.pairwise_cons.mp h with ⟨hy, ht⟩
      simp only [jsInsert]
      split
      · rename_i hc
        by_cases hpx : p x = true
        · have hnil : (y :: t).filter p = [] := by
            refine List.filter_eq_nil_iff.mpr ?_
            intro z hz hpz
            rcases List.mem_cons.mp hz with rfl | hz
            · exact absurd hc (by rw [hp0 x z hpx hpz]; omega)
            · have hzy : cmp z y < 0 := (hcong x z y hpx hpz).mp hc
              exact absurd (hy z hz) (by omega)
          simp [List.filter_cons, hpx, hnil]
        · simp [List.filter_cons, hpx]
      · rename_i hc
        by_cases hpy : p y = true <;> by_cases hpx : p x = true <;>
          simp [List.filter_cons, hpy, hpx, ih ht]
  suffices haux : ∀ (l acc : List α), acc.Pairwise (fun u v => 0 ≤ cmp v u) →
      (l.foldl (fun acc x => jsInsert cmp x acc) acc).filter p =
        acc.filter p ++ l.filter p by
    simpa using haux l [] (by simp)
  intro l
  induction l with
  | nil => intro acc _; simp
  | cons x t ih =>
    intro acc h
    simp only [List.foldl_cons]
    rw [ih _ (jsInsert_pairwise cmp asym ptrans h), hins x acc h]
    by_cases hpx : p x = true <;> simp [hpx, List.filter_cons]

end JsSortLemmas

/-! ## Properties of the class comparator -/

/-- The rank part of the comparator (the code after the sentinel tests). -/
def rankCmp : Option Int → Option Int → Int := fun u v =>
  if u = v then 0
  else
    match u, v with
    | none, _ => -1
    | _, none => 1
    | some a, some b => bigSign (a - b)

theorem twCmp_eq (p q : Tok × Option Int) :
    twCmp p q =
      if isSentinel p.1 then 1
      else if isSentinel q.1 then -1
      else rankCmp p.2 q.2 := rfl

theorem bigSign_neg_iff {x : Int} : bigSign x < 0 ↔ x < 0 := by
  unfold bigSign; split_ifs <;> omega

theorem bigSign_zero_iff {x : Int} : bigSign x = 0 ↔ x = 0 := by
  unfold bigSign; split_ifs <;> omega

theorem rankCmp_antisymm (u v : Option Int) : rankCmp v u = -rankCmp u v := by
  unfold rankCmp
  rcases u with _ | a <;> rcases v with _ | b
  · rfl
  · rfl
  · rfl
  · simp only [Option.some.injEq]
    by_cases h : a = b
    · simp [h]
    · rw [if_neg (fun hh => h hh.symm), if_neg h]
      unfold bigSign
      split_ifs <;> omega

theorem rankCmp_trans {u v w : Option Int}
    (h1 : rankCmp u v < 0) (h2 : rankCmp v w < 0) : rankCmp u w < 0 := by
  rcases v with _ | b
  · exfalso
    rcases u with _ | a
    · rw [show rankCmp none none = 0 from rfl] at h1; omega
    · rw [show ∀ x, rankCmp (some x) none = 1 from fun _ => rfl] at h1; omega
  · rcases u with _ | a
    · rcases w with _ | c
      · rw [show ∀ x, rankCmp (some x) none = 1 from fun _ => rfl] at h2; omega
      · rw [show ∀ x, rankCmp none (some x) = -1 from fun _ => rfl]; omega
    · rcases w with _ | c
      · rw [show ∀ x, rankCmp (some x) none = 1 from fun _ => rfl] at h2; omega
      · simp only [rankCmp, Option.some.injEq] at h1 h2 ⊢
        by_cases hab : a = b
        · rw [if_pos hab] at h1; omega
        · rw [if_neg hab, bigSign_neg_iff] at h1
          by_cases hbc : b = c
          · subst hbc
            rw [if_neg hab, bigSign_neg_iff]; omega
          · rw [if_neg hbc, bigSign_neg_iff] at h2
            have hac : a ≠ c := by omega
            rw [if_neg hac, bigSign_neg_iff]; omega

theorem twCmp_asym (a b : Tok × Option Int) (h : twCmp a b < 0) : 0 ≤ twCmp b a := by
  rw [twCmp_eq] at h ⊢
  by_cases hsa : isSentinel a.1 <;> by_cases hsb : isSentinel b.1 <;>
    simp [hsa, hsb] at h ⊢
  rw [rankCmp_antisymm]
  omega

theorem twCmp_trans (a b c : Tok × Option Int)
    (h1 : twCmp a b < 0) (h2 : twCmp b c < 0) : twCmp a c < 0 := by
  rw [twCmp_eq] at h1 h2 ⊢
  by_cases hsa : isSentinel a.1 <;> by_cases hsb : isSentinel b.1 <;>
    by_cases hsc : isSentinel c.1 <;> simp [hsa, hsb, hsc] at h1 h2 ⊢
  exact rankCmp_trans h1 h2

/-- Tokens that are not sentinels and share the same rank form a tie class.
    (Used for the stability statement.) -/
theorem twCmp_tie {r : Option Int} (a b : Tok × Option Int)
    (ha : (!isSentinel a.1 && a.2 = r) = true)
    (hb : (!isSentinel b.1 && b.2 = r) = true) : twCmp a b = 0 := by
  simp only [Bool.and_eq_true, Bool.not_eq_true', decide_eq_true_eq] at ha hb
  rw [twCmp_eq, if_neg (by simp [ha.1]), if_neg (by simp [hb.1])]
  rw [ha.2, hb.2]
  simp [rankCmp]

theorem twCmp_tie_congr {r : Option Int} (a b y : Tok × Option Int)
    (ha : (!isSentinel a.1 && a.2 = r) = true)
    (hb : (!isSentinel b.1 && b.2 = r) = true) :
    (twCmp a y < 0 ↔ twCmp b y < 0) := by
  simp only [Bool.and_eq_true, Bool.not_eq_true', decide_eq_true_eq] at ha hb
  by_cases hy : isSentinel y.1 = true
  · simp [twCmp_eq, ha.1, hb.1, hy]
  · simp [twCmp_eq, ha.1, hb.1, hy, ha.2, hb.2]

/-- `Pairwise` sortedness of any `reorderClasses` output. -/
theorem reorderClasses_pairwise (cl : List Tok) (o : Tok → Option Int) :
    (reorderClasses cl o).Pairwise (fun u v => 0 ≤ twCmp v u) :=
  jsSort_pairwise twCmp twCmp_asym twCmp_trans _

theorem reorderClasses_perm (cl : List Tok) (o : Tok → Option Int) :
    (reorderClasses cl o).Perm (cl.map (fun c => (c, o c))) :=
  jsSort_perm twCmp _

/-- Every entry of `reorderClasses cl o` pairs a member of `cl` with its
    oracle rank. -/
theorem reorderClasses_mem {cl : List Tok} {o : Tok → Option Int}
    {x : Tok × Option Int} (hx : x ∈ reorderClasses cl o) :
    x.1 ∈ cl ∧ x.2 = o x.1 := by
  have := (reorderClasses_perm cl o).mem_iff.mp hx
  rcases List.mem_map.mp this with ⟨c, hc, rfl⟩
  exact ⟨hc, rfl⟩

/-- C2: the ranked-token sort order of `reorderClasses`: the output is a
    permutation of the oracle-ranked input; sentinel tokens (`...` / `…`)
    occupy a suffix, i.e. every sentinel sorts after every other token;
    among non-sentinels every Unknown-rank token precedes every
    known-rank token; known ranks are ascending; and each tie class
    (non-sentinel tokens of equal rank — in particular equal known rank)
    keeps its original relative order (stability). -/
theorem C2_reorder_order (cl : List Tok) (o : Tok → Option Int) :
    (reorderClasses cl o).Perm (cl.map (fun c => (c, o c))) ∧
    (∀ (i j : Nat) (x y : Tok × Option Int), i < j →
      (reorderClasses cl o)[i]? = some x → (reorderClasses cl o)[j]? = some y →
      (isSentinel x.1 = true → isSentinel y.1 = true) ∧
      (isSentinel x.1 = false → isSentinel y.1 = false →
        x.2.isSome = true → y.2.isSome = true) ∧
      (∀ a b : Int, isSentinel x.1 = false → isSentinel y.1 = false →
        x.2 = some a → y.2 = some b → a ≤ b)) ∧
    (∀ r : Option Int,
      (reorderClasses cl o).filter (fun t => !isSentinel t.1 && t.2 = r) =
        (cl.map (fun c => (c, o c))).filter (fun t => !isSentinel t.1 && t.2 = r)) := by
  refine ⟨reorderClasses_perm cl o, ?_, ?_⟩
  · intro i j x y hij hx hy
    have hp := reorderClasses_pairwise cl o
    rw [List.pairwise_iff_getElem] at hp
    obtain ⟨hi, hxe⟩ := List.getElem?_eq_some.mp hx
    obtain ⟨hj, hye⟩ := List.getElem?_eq_some.mp hy
    have hrel := hp i j hi hj hij
    rw [hxe, hye] at hrel
    refine ⟨?_, ?_, ?_⟩
    · intro hsx
      by_contra hsy
      rw [twCmp_eq, if_neg (by simp_all), if_pos hsx] at hrel
      omega
    · intro hsx hsy hxs
      by_contra hys
      rw [twCmp_eq, if_neg (by simp [hsy]), if_neg (by simp [hsx])] at hrel
      rcases Option.isSome_iff_exists.mp hxs with ⟨a, ha⟩
      have hyn : y.2 = none := Option.not_isSome_iff_eq_none.mp (by simpa using hys)
      rw [hyn, ha] at hrel
      rw [show ∀ z, rankCmp none (some z) = -1 from fun _ => rfl] at hrel
      omega
    · intro a b hsx hsy ha hb
      rw [twCmp_eq, if_neg (by simp [hsy]), if_neg (by simp [hsx]), hb, ha] at hrel
      by_contra hab
      have hr : rankCmp (some b) (some a) = bigSign (b - a) := by
        unfold rankCmp
        rw [if_neg (by simp only [Option.some.injEq]; omega)]
      rw [hr] at hrel
      unfold bigSign at hrel
      split_ifs at hrel <;> omega
  · intro r
    exact jsSort_filter twCmp twCmp_asym twCmp_trans _ twCmp_tie twCmp_tie_congr _

/-- A small concrete oracle for witnesses. -/
def oW : Tok → Option Int := fun t =>
  if t = ['a'] then some 1 else if t = ['b'] then some 2 else none

/-- Witness for C2 at a concrete input. -/
theorem C2_reorder_order_witness :
    (0 : Nat) < 1 ∧
    (reorderClasses [['b'], ['a']] oW)[0]? = some (['a'], some 1) ∧
    (reorderClasses [['b'], ['a']] oW)[1]? = some (['b'], some 2) ∧
    (1 : Int) ≤ 2 := by
  refine ⟨by decide, by decide, by decide, ?_⟩
  exact ((C2_reorder_order [['b'], ['a']] oW).2.1 0 1 (['a'], some 1) (['b'], some 2)
    (by decide) (by decide) (by decide)).2.2 1 2 (by decide) (by decide) rfl rfl

/-! ## The duplicate-removal filter -/

/-- Complete characterisation of the removed indices: position `n` is
    removed exactly when its text is in the initial seen-set or some
    earlier entry has the same text and a known rank. -/
theorem dedupGo_removed_iff :
    ∀ (l : List (Tok × Option Int)) (seen : List Tok) (i0 n : Nat),
      n ∈ (dedupGo l seen i0).2 ↔
        ∃ k x, n = i0 + k ∧ l[k]? = some x ∧
          (x.1 ∈ seen ∨
            ∃ j y, j < k ∧ l[j]? = some y ∧ y.1 = x.1 ∧ y.2.isSome = true) := by
  intro l
  induction l with
  | nil => intro seen i0 n; simp [dedupGo]
  | cons hd rest ih =>
    obtain ⟨t, r⟩ := hd
    intro seen i0 n
    by_cases hts : t ∈ seen
    · simp only [dedupGo, if_pos hts]
      constructor
      · intro hn
        rcases List.mem_cons.mp hn with rfl | hn
        · exact ⟨0, (t, r), by omega, by simp, Or.inl hts⟩
        · obtain ⟨k, x, hnk, hkx, hcond⟩ := (ih seen (i0 + 1) n).mp hn
          refine ⟨k + 1, x, by omega, by simpa using hkx, ?_⟩
          rcases hcond with hx | ⟨j, y, hj, hjy, hyx, hys⟩
          · exact Or.inl hx
          · exact Or.inr ⟨j + 1, y, by omega, by simpa using hjy, hyx, hys⟩
      · rintro ⟨k, x, hnk, hkx, hcond⟩
        rcases k with _ | k
        · simp only [List.getElem?_cons_zero, Option.some.injEq] at hkx
          exact List.mem_cons.mpr (Or.inl (by omega))
        · refine List.mem_cons.mpr (Or.inr ((ih seen (i0 + 1) n).mpr ?_))
          refine ⟨k, x, by omega, by simpa using hkx, ?_⟩
          rcases hcond with hx | ⟨j, y, hj, hjy, hyx, hys⟩
          · exact Or.inl hx
          · rcases j with _ | j
            · simp only [List.getElem?_cons_zero, Option.some.injEq] at hjy
              refine Or.inl ?_
              rw [← hyx, ← hjy]
              exact hts
            · exact Or.inr ⟨j, y, by omega, by simpa using hjy, hyx, hys⟩
    · simp only [dedupGo, if_neg hts]
      constructor
      · intro hn
        obtain ⟨k, x, hnk, hkx, hcond⟩ :=
          (ih (if r.isSome then t :: seen else seen) (i0 + 1) n).mp hn
        refine ⟨k + 1, x, by omega, by simpa using hkx, ?_⟩
        rcases hcond with hx | ⟨j, y, hj, hjy, hyx, hys⟩
        · by_cases hr : r.isSome = true
          · rw [if_pos hr] at hx
            rcases List.mem_cons.mp hx with rfl | hx
            · exact Or.inr ⟨0, (x.1, r), by omega, by simp, rfl, hr⟩
            · exact Or.inl hx
          · rw [if_neg hr] at hx
            exact Or.inl hx
        · exact Or.inr ⟨j + 1, y, by omega, by simpa using hjy, hyx, hys⟩
      · rintro ⟨k, x, hnk, hkx, hcond⟩
        rcases k with _ | k
        · simp only [List.getElem?_cons_zero, Option.some.injEq] at hkx
          subst hkx
          rcases hcond with hx | ⟨j, y, hj, _, _, _⟩
          · exact absurd hx hts
          · omega
        · refine (ih (if r.isSome then t :: seen else seen) (i0 + 1) n).mpr ?_
          refine ⟨k, x, by omega, by simpa using hkx, ?_⟩
          rcases hcond with hx | ⟨j, y, hj, hjy, hyx, hys⟩
          · refine Or.inl ?_
            split
            · exact List.mem_cons.mpr (Or.inr hx)
            · exact hx
          · rcases j with _ | j
            · simp only [List.getElem?_cons_zero, Option.some.injEq] at hjy
              refine Or.inl ?_
              have hrs : r.isSome = true := by rw [← hjy] at hys; exact hys
              rw [if_pos hrs]
              refine List.mem_cons.mpr (Or.inl ?_)
              rw [← hyx, ← hjy]
            · exact Or.inr ⟨j, y, by omega, by simpa using hjy, hyx, hys⟩

/-- The kept entries form a sublist of the input. -/
theorem dedupGo_kept_sublist :
    ∀ (l : List (Tok × Option Int)) (seen : List Tok) (i0 : Nat),
      (dedupGo l seen i0).1.Sublist l := by
  intro l
  induction l with
  | nil => intro seen i0; simp [dedupGo]
  | cons hd rest ih =>
    obtain ⟨t, r⟩ := hd
    intro seen i0
    by_cases hts : t ∈ seen
    · simp only [dedupGo, if_pos hts]
      exact (ih seen (i0 + 1)).cons _
    · simp only [dedupGo, if_neg hts]
      exact (ih _ (i0 + 1)).cons₂ _

/-- No kept entry has its text in the initial seen-set. -/
theorem dedupGo_kept_notmem_seen :
    ∀ (l : List (Tok × Option Int)) (seen : List Tok) (i0 : Nat)
      (x : Tok × Option Int), x ∈ (dedupGo l seen i0).1 → x.1 ∉ seen := by
  intro l
  induction l with
  | nil => intro seen i0 x hx; simp [dedupGo] at hx
  | cons hd rest ih =>
    obtain ⟨t, r⟩ := hd
    intro seen i0 x hx
    by_cases hts : t ∈ seen
    · simp only [dedupGo, if_pos hts] at hx
      exact ih seen (i0 + 1) x hx
    · simp only [dedupGo, if_neg hts] at hx
      rcases List.mem_cons.mp hx with rfl | hx
      · exact hts
      · intro hmem
        refine ih _ (i0 + 1) x hx ?_
        split
        · exact List.mem_cons.mpr (Or.inr hmem)
        · exact hmem

/-- Among the kept entries, a known-rank text never recurs. -/
theorem dedupGo_kept_pairwise :
    ∀ (l : List (Tok × Option Int)) (seen : List Tok) (i0 : Nat),
      (dedupGo l seen i0).1.Pairwise
        (fun x y => x.2.isSome = true → x.1 ≠ y.1) := by
  intro l
  induction l with
  | nil => intro seen i0; simp [dedupGo]
  | cons hd rest ih =>
    obtain ⟨t, r⟩ := hd
    intro seen i0
    by_cases hts : t ∈ seen
    · simp only [dedupGo, if_pos hts]
      exact ih seen (i0 + 1)
    · simp only [dedupGo, if_neg hts]
      refine List.pairwise_cons.mpr ⟨?_, ih _ (i0 + 1)⟩
      intro y hy hr
      rw [if_pos hr] at hy
      have := dedupGo_kept_notmem_seen _ _ _ y hy
      intro hty
      exact this (by rw [← hty]; exact List.mem_cons_self _ _)

/-- Texts never seen and always unknown-ranked are kept with their exact
    multiplicity. -/
theorem dedupGo_kept_count (t : Tok) :
    ∀ (l : List (Tok × Option Int)) (seen : List Tok) (i0 : Nat),
      (∀ x ∈ l, x.1 = t → x.2 = none) → t ∉ seen →
      ((dedupGo l seen i0).1.map Prod.fst).count t = (l.map Prod.fst).count t := by
  intro l
  induction l with
  | nil => intro seen i0 _ _; simp [dedupGo]
  | cons hd rest ih =>
    obtain ⟨u, r⟩ := hd
    intro seen i0 hunk hts
    by_cases hus : u ∈ seen
    · have hut : u ≠ t := fun h => hts (h ▸ hus)
      simp only [dedupGo, if_pos hus, List.map_cons]
      rw [List.count_cons_of_ne (fun h => hut h.symm)]
      exact ih seen (i0 + 1) (fun x hx => hunk x (List.mem_cons.mpr (Or.inr hx))) hts
    · simp only [dedupGo, if_neg hus, List.map_cons]
      have hrec := ih (if r.isSome then u :: seen else seen) (i0 + 1)
        (fun x hx => hunk x (List.mem_cons.mpr (Or.inr hx))) ?_
      · by_cases hut : u = t
        · subst hut
          rw [List.count_cons_self, List.count_cons_self, hrec]
        · rw [List.count_cons_of_ne (fun h => hut h.symm),
            List.count_cons_of_ne (fun h => hut h.symm), hrec]
      · split
        · rename_i hr
          intro hmem
          rcases List.mem_cons.mp hmem with rfl | hmem
          · have hnone : r = none := hunk (t, r) (List.mem_cons.mpr (Or.inl rfl)) rfl
            rw [hnone] at hr
            simp at hr
          · exact hts hmem
        · exact hts

/-- C1: duplicate removal in `sortClassList`.  With `removeDuplicates`:
    an index of the reordered list is removed iff some earlier entry has
    the same text and a known rank (so unknown-rank tokens never shadow
    anything); no known-rank token string appears twice in the output;
    unknown-rank tokens are preserved with their multiplicity.  Without
    `removeDuplicates` the output token multiset equals the input. -/
theorem C1_dedup (cl : List Tok) (o : Tok → Option Int) :
    (∀ n : Nat, n ∈ (sortClassList cl o true).removedIndices ↔
      ∃ x : Tok × Option Int, (reorderClasses cl o)[n]? = some x ∧
        ∃ j y, j < n ∧ (reorderClasses cl o)[j]? = some y ∧
          y.1 = x.1 ∧ y.2.isSome = true) ∧
    ((sortClassList cl o true).classList.Pairwise
      (fun a b => (o a).isSome = true → a ≠ b)) ∧
    (∀ t : Tok, o t = none →
      (sortClassList cl o true).classList.count t = cl.count t) ∧
    ((sortClassList cl o false).classList.Perm cl) := by
  refine ⟨?_, ?_, ?_, ?_⟩
  · intro n
    have h := dedupGo_removed_iff (reorderClasses cl o) [] 0 n
    simp only [sortClassList, if_pos trivial]
    rw [h]
    constructor
    · rintro ⟨k, x, hk, hkx, hcond⟩
      rcases hcond with hx | ⟨j, y, hj, hjy, hyx, hys⟩
      · simp at hx
      · exact ⟨x, by rw [hk, Nat.zero_add]; exact hkx, j, y, by omega, hjy, hyx, hys⟩
    · rintro ⟨x, hkx, j, y, hj, hjy, hyx, hys⟩
      exact ⟨n, x, by omega, hkx, Or.inr ⟨j, y, hj, hjy, hyx, hys⟩⟩
  · simp only [sortClassList, if_pos trivial]
    have hp := dedupGo_kept_pairwise (reorderClasses cl o) [] 0
    rw [List.pairwise_map]
    refine hp.imp_of_mem ?_
    intro x y hx _ h hs
    refine h ?_
    have hmem := (dedupGo_kept_sublist (reorderClasses cl o) [] 0).mem hx
    rw [(reorderClasses_mem hmem).2, hs]
  · intro t ht
    simp only [sortClassList, if_pos trivial]
    have hc := dedupGo_kept_count t (reorderClasses cl o) [] 0 ?_ (by simp)
    · rw [hc]
      have hperm := (reorderClasses_perm cl o).map Prod.fst
      have hmapid : List.map Prod.fst (List.map (fun c => (c, o c)) cl) = cl := by
        rw [List.map_map]
        rw [show (Prod.fst ∘ fun c : Tok => (c, o c)) = id from rfl, List.map_id]
      calc List.count t (List.map Prod.fst (reorderClasses cl o))
          = List.count t (List.map Prod.fst (List.map (fun c => (c, o c)) cl)) :=
            hperm.countP_eq (fun x => x == t)
        _ = List.count t cl := by rw [hmapid]
    · intro x hx hxt
      rw [(reorderClasses_mem hx).2, hxt, ht]
  · simp only [sortClassList, if_neg not_false]
    have hperm := (reorderClasses_perm cl o).map Prod.fst
    refine hperm.trans ?_
    rw [List.map_map]
    rw [show (Prod.fst ∘ fun c : Tok => (c, o c)) = id from rfl, List.map_id]

/-- Witness for C1 at a concrete input. -/
theorem C1_dedup_witness :
    oW ['u'] = none ∧
    (sortClassList [['u'], ['u']] oW true).classList.count ['u'] =
      ([['u'], ['u']] : List Tok).count ['u'] :=
  ⟨by decide, (C1_dedup [['u'], ['u']] oW).2.2.1 ['u'] (by decide)⟩

/-! ## Edge cases of `sortClasses` -/

theorem containsBB_ws {s : List Char} (h : s.all isWsClass = true) :
    containsBB s = false := by
  induction s with
  | nil => rfl
  | cons a t ih =>
    cases t with
    | nil => rfl
    | cons b u =>
      simp only [List.all_cons, Bool.and_eq_true] at h
      have ha : decide (a = lbrace) = false := by
        apply decide_eq_false
        intro heq
        rw [heq] at h
        exact absurd h.1 (by decide)
      have ht : containsBB (b :: u) = false := by
        apply ih
        simp only [List.all_cons, Bool.and_eq_true]
        exact h.2
      simp [containsBB, ha, ht]

/-- The one-step unfolding of `splitCW` on a cons cell. -/
theorem splitCW_cons (c : Char) (rest : List Char) :
    splitCW (c :: rest) =
      (if isWsClass c then
        match splitCW rest with
        | ([] :: cs, w0 :: ws) => ([] :: cs, (c :: w0) :: ws)
        | (cs, ws) => ([] :: cs, [c] :: ws)
      else
        match splitCW rest with
        | (h :: t, ws) => ((c :: h) :: t, ws)
        | ([], ws) => ([[c]], ws)) := rfl

theorem splitCW_all_ws : ∀ (c : Char) (rest : List Char), isWsClass c = true →
    rest.all isWsClass = true → splitCW (c :: rest) = ([[], []], [c :: rest]) := by
  intro c rest
  induction rest generalizing c with
  | nil => intro hc _; simp [splitCW, hc]
  | cons b u ih =>
    intro hc hall
    simp only [List.all_cons, Bool.and_eq_true] at hall
    have hrec := ih b hall.1 hall.2
    rw [splitCW_cons, hrec]
    simp [hc]

/-- C9: `sortClasses` edge cases — the empty string and any string
    containing the `{{` marker are returned unchanged (for every oracle
    and every option combination); a whitespace-only string collapses to
    a single space when whitespace collapsing is enabled and is returned
    unchanged when it is disabled. -/
theorem C9_edge_cases :
    (∀ (o : Tok → Option Int) (opts : SortOptions), sortClasses [] o opts = []) ∧
    (∀ (s : List Char) (o : Tok → Option Int) (opts : SortOptions),
      containsBB s = true → sortClasses s o opts = s) ∧
    (∀ (s : List Char) (o : Tok → Option Int) (opts : SortOptions),
      s ≠ [] → s.all isWsClass = true →
      (normalizeCW opts.collapseWhitespace).isSome = true →
      sortClasses s o opts = [' ']) ∧
    (∀ (s : List Char) (o : Tok → Option Int) (opts : SortOptions),
      s.all isWsClass = true → normalizeCW opts.collapseWhitespace = none →
      sortClasses s o opts = s) := by
  refine ⟨?_, ?_, ?_, ?_⟩
  · intro o opts
    simp [sortClasses]
  · intro s o opts hBB
    by_cases hs : s = []
    · subst hs; simp [sortClasses]
    · simp only [sortClasses]
      rw [if_neg hs, if_pos hBB]
  · intro s o opts hs hall hCol
    simp only [sortClasses]
    rw [if_neg hs, if_neg (by simp [containsBB_ws hall]),
      if_pos (by simp [hCol, hall])]
  · intro s o opts hall hC
    by_cases hs : s = []
    · subst hs; simp [sortClasses]
    · obtain ⟨c, rest, rfl⟩ := List.exists_cons_of_ne_nil hs
      simp only [List.all_cons, Bool.and_eq_true] at hall
      have hsplit := splitCW_all_ws c rest hall.1 hall.2
      obtain ⟨iF, iL, rd, cw⟩ := opts
      simp only [sortClasses] at *
      have hbb : containsBB (c :: rest) = false :=
        containsBB_ws (by simp only [List.all_cons, Bool.and_eq_true]; exact hall)
      rw [if_neg hs, if_neg (by simp [hbb]), if_neg (by simp [hC])]
      cases iF <;> cases iL <;> cases rd <;>
        simp [hsplit, hC, popTrailingEmpty, sortClassList, reorderClasses, jsSort,
          jsInsert, dedupGo, wsFilter, wsFilterGo, stitch]

/-- An oracle that knows no class, for edge-case witnesses. -/
def oUnknown : Tok → Option Int := fun _ => none

/-- Witness for C9 at concrete inputs (one per edge case). -/
theorem C9_edge_cases_witness :
    sortClasses [] oUnknown defaultOpts = [] ∧
    (containsBB (lbrace :: lbrace :: ['a']) = true ∧
      sortClasses (lbrace :: lbrace :: ['a']) oUnknown defaultOpts =
        lbrace :: lbrace :: ['a']) ∧
    (([' '] : List Char) ≠ [] ∧ [' '].all isWsClass = true ∧
      (normalizeCW defaultOpts.collapseWhitespace).isSome = true ∧
      sortClasses [' '] oUnknown defaultOpts = [' ']) ∧
    ([' '].all isWsClass = true ∧
      normalizeCW (CollapseWs.flag false) = none ∧
      sortClasses [' '] oUnknown { collapseWhitespace := .flag false } = [' ']) :=
  ⟨C9_edge_cases.1 oUnknown defaultOpts,
   ⟨by decide, C9_edge_cases.2.1 _ oUnknown defaultOpts (by decide)⟩,
   ⟨by decide, by decide, by decide,
     C9_edge_cases.2.2.1 _ oUnknown defaultOpts (by decide) (by decide) (by decide)⟩,
   ⟨by decide, by decide,
     C9_edge_cases.2.2.2 _ oUnknown { collapseWhitespace := .flag false }
       (by decide) (by decide)⟩⟩

/-! ## C3: whitespace re-stitching -/

/-- Was the token at *original* position `i` removed as a duplicate?  (It
    is a duplicate when an earlier original occurrence of the same text
    has a known rank; by stability of the sort, among equal texts the
    earlier original occurrence is the one that is kept.) -/
def origDupRemoved (classes : List Tok) (o : Tok → Option Int) (i : Nat) : Bool :=
  match classes[i]? with
  | none => false
  | some t => (o t).isSome && ((classes.take i).contains t)

/-- Modelled from the claim's wording (not from the source): drop
    whitespace run `i` exactly when the token at *original input*
    position `i + 1` was removed as a duplicate, then concatenate each
    surviving token with the corresponding surviving run in sorted
    order.  To be compared with what `sortClasses` actually does. -/
def specStitchC3 (s : List Char) (o : Tok → Option Int) : List Char :=
  let p := splitCW s
  let classes := popTrailingEmpty p.1
  let ws := p.2
  let keptWs := (List.range ws.length).filterMap
    (fun i => if origDupRemoved classes o (i + 1) then none else ws[i]?)
  let r := sortClassList classes o true
  stitch r.classList keptWs

/-- A concrete oracle for the C3 counterexample. -/
def oC3 : Tok → Option Int := fun t =>
  if t = ['a'] then some 1 else if t = ['x'] then some 2
  else if t = ['y'] then some 3 else none

/-- C3 counterexample: on `"x y  a   a"` (whitespace preserved), the code
    drops whitespace run 0 — the run whose index is one less than the
    *sorted-order* index of the removed duplicate — whereas the claim
    predicts dropping run 2, the run before the removed *original* token.
    The outputs differ, refuting the claim as stated. -/
theorem C3_counterexample :
    sortClasses ("x y  a   a".toList) oC3 { collapseWhitespace := .flag false } =
      "a  x   y".toList ∧
    specStitchC3 ("x y  a   a".toList) oC3 = "a x  y".toList ∧
    sortClasses ("x y  a   a".toList) oC3 { collapseWhitespace := .flag false } ≠
      specStitchC3 ("x y  a   a".toList) oC3 := by
  refine ⟨by decide, by decide, by decide⟩

/-- `wsFilter` keeps exactly the runs whose index `i` satisfies
    `i + 1 ∉ removedIndices`. -/
theorem wsFilter_eq (ws : List Tok) (rem : List Nat) :
    wsFilter ws rem = (List.range ws.length).filterMap
      (fun i => if (i + 1) ∈ rem then none else ws[i]?) := by
  suffices h : ∀ (ws : List Tok) (k : Nat),
      wsFilterGo rem ws k = (List.range ws.length).filterMap
        (fun i => if (k + i + 1) ∈ rem then none else ws[i]?) by
    have := h ws 0
    simpa [wsFilter] using this
  intro ws
  induction ws with
  | nil => intro k; simp [wsFilterGo]
  | cons w t ih =>
    intro k
    simp only [List.length_cons]
    rw [List.range_succ_eq_map]
    simp only [wsFilterGo, List.filterMap_cons, List.filterMap_map]
    have hresh : ∀ i ∈ List.range t.length,
        ((fun i => if (k + i + 1) ∈ rem then none else (w :: t)[i]?) ∘ Nat.succ) i =
          (fun i => if (k + 1 + i + 1) ∈ rem then none else t[i]?) i := by
      intro i _
      simp only [Function.comp, Nat.succ_eq_add_one]
      have heq : k + (i + 1) + 1 = k + 1 + i + 1 := by omega
      rw [heq]
      simp
    rw [List.filterMap_congr hresh, ← ih (k + 1)]
    by_cases hk : (k + 1) ∈ rem
    · simp only [Nat.add_zero, if_pos hk]
    · simp only [Nat.add_zero, if_neg hk]
      simp

/-- C3 amended: whitespace run `i` (of the original tokenization) is
    dropped exactly when `i + 1` is among `removedIndices` — indices into
    the *sorted* class list, not positions in the original input; the
    surviving tokens, in sorted order, are then each concatenated with
    the corresponding surviving run positionally (missing runs are
    treated as empty).  Stated for the options the claim describes
    (`removeDuplicates` on, whitespace preserved, no pinning). -/
theorem C3_amended (s : List Char) (o : Tok → Option Int) (hs : s ≠ [])
    (hbb : containsBB s = false) :
    sortClasses s o { collapseWhitespace := .flag false } =
      stitch (sortClassList (popTrailingEmpty (splitCW s).1) o true).classList
        ((List.range (splitCW s).2.length).filterMap
          (fun i =>
            if (i + 1) ∈ (sortClassList (popTrailingEmpty (splitCW s).1) o true).removedIndices
            then none else (splitCW s).2[i]?)) := by
  rw [← wsFilter_eq]
  simp only [sortClasses]
  rw [if_neg hs, if_neg (by simp [hbb])]
  simp [normalizeCW]

/-- Witness for the amended C3 at a concrete input. -/
theorem C3_amended_witness :
    ("x y  a   a".toList ≠ []) ∧
    (containsBB "x y  a   a".toList = false) ∧
    sortClasses ("x y  a   a".toList) oC3 { collapseWhitespace := .flag false } =
      stitch (sortClassList (popTrailingEmpty (splitCW "x y  a   a".toList).1) oC3 true).classList
        ((List.range (splitCW "x y  a   a".toList).2.length).filterMap
          (fun i =>
            if (i + 1) ∈ (sortClassList (popTrailingEmpty (splitCW "x y  a   a".toList).1) oC3 true).removedIndices
            then none else (splitCW "x y  a   a".toList).2[i]?)) :=
  ⟨by decide, by decide,
    C3_amended ("x y  a   a".toList) oC3 (by decide) (by decide)⟩

/-! ## The span extractor (`src/matcher.ts`) -/

/-- `ClassMatch` from `types.ts` (the derived `vscode.Range` field is
    omitted: it is `positionAt` applied to the two offsets). -/
structure ClassMatch where
  fullMatch : List Char
  classString : List Char
  startOffset : Nat
  classStartOffset : Nat
deriving DecidableEq, Repr

/-- The filter body of `deduplicateMatches`, carrying the `seen` key set
    (`` `${classStartOffset}-${length}` `` is the pair of both numbers —
    decimal rendering with a dash is injective). -/
def dedupMatchesGo : List ClassMatch → List (Nat × Nat) → List ClassMatch
  | [], _ => []
  | m :: rest, seen =>
    let key := (m.classStartOffset, m.classString.length)
    if key ∈ seen then dedupMatchesGo rest seen
    else m :: dedupMatchesGo rest (key :: seen)

/-- `deduplicateMatches` from `matcher.ts`. -/
def deduplicateMatches (ms : List ClassMatch) : List ClassMatch :=
  dedupMatchesGo ms []

/-- The comparator of `matches.sort((a, b) => a.startOffset - b.startOffset)`. -/
def matchCmp (a b : ClassMatch) : Int :=
  (a.startOffset : Int) - (b.startOffset : Int)

/-- The merge step of `findClassMatches`: pattern matches are appended
    first, function matches second, then the list is sorted by
    `startOffset` and deduplicated. -/
def findClassMatchesCore (patternMatches funcMatches : List ClassMatch) :
    List ClassMatch :=
  deduplicateMatches (jsSort matchCmp (patternMatches ++ funcMatches))

/-- A raw result of `regex.exec` for one pattern: the match position, the
    full match `match[0]`, and the designated capture group
    `match[captureGroup]` (`none` when the group did not participate).
    The regex engine itself is not modelled; `findMatchesForPattern` is
    embedded as a function of the raw match list. -/
structure RawMatch where
  index : Nat
  fullMatch : List Char
  captured : Option (List Char)
deriving DecidableEq, Repr

/-- `String.prototype.indexOf` (first occurrence of `sub`). -/
def firstIndexOfSub (sub : List Char) : List Char → Option Nat
  | [] => if sub.isPrefixOf ([] : List Char) then some 0 else none
  | c :: t =>
    if sub.isPrefixOf (c :: t) then some 0
    else (firstIndexOfSub sub t).map (· + 1)

/-- The per-match processing of `findMatchesForPattern`: reject an absent,
    empty or whitespace-only capture, locate the capture inside the full
    match with `indexOf`, and emit the offset-tagged span. -/
def findMatchesForPattern (raws : List RawMatch) : List ClassMatch :=
  raws.filterMap fun m =>
    match m.captured with
    | none => none
    | some cs =>
      if cs = [] || cs.all jsWs then none
      else
        match firstIndexOfSub cs m.fullMatch with
        | none => none
        | some k => some ⟨m.fullMatch, cs, m.index, m.index + k⟩

/-- The scanning loop of `extractBalancedContent`: returns how many
    characters are consumed up to and including the closing parenthesis
    that balances an initial depth, or `none` when the text ends first.
    `inStr` is the current string-quote character, `escaped` the
    backslash flag. -/
def balScan : List Char → Nat → Option Char → Bool → Option Nat
  | [], _, _, _ => none
  | c :: rest, depth, inStr, escaped =>
    if escaped then (balScan rest depth inStr false).map (· + 1)
    else if c = bslash then (balScan rest depth inStr true).map (· + 1)
    else
      match inStr with
      | some q =>
        if c = q then (balScan rest depth none false).map (· + 1)
        else (balScan rest depth inStr false).map (· + 1)
      | none =>
        if c = dquote || c = squote then (balScan rest depth (some c) false).map (· + 1)
        else if c = lparen then (balScan rest (depth + 1) none false).map (· + 1)
        else if c = rparen then
          if depth = 1 then some 1
          else (balScan rest (depth - 1) none false).map (· + 1)
        else (balScan rest depth none false).map (· + 1)

/-- `extractBalancedContent` from `matcher.ts`: the text strictly between
    the opening parenthesis at `openParenIndex` and its matching closing
    parenthesis (parentheses inside quoted regions are ignored,
    backslash escapes are honoured), plus the index of that closing
    parenthesis; `none` when the parentheses never rebalance. -/
def extractBalancedContent (text : List Char) (openParenIndex : Nat) :
    Option (List Char × Nat) :=
  if text[openParenIndex]? ≠ some lparen then none
  else
    match balScan (text.drop (openParenIndex + 1)) 1 none false with
    | none => none
    | some n => some ((text.drop (openParenIndex + 1)).take (n - 1), openParenIndex + n)

/-- JavaScript regex `.` (no `s` flag): any character except a
    LineTerminator. -/
def dotNoNl (c : Char) : Bool :=
  !(c.toNat = 10 || c.toNat = 13 || c.toNat = 8232 || c.toNat = 8233)

/-- Matcher for the quoted-literal regex alternative
    `q([^q\\]*(?:\\.[^q\\]*)*)q` anchored right after an opening quote
    `q`: returns the raw captured value (escapes kept verbatim), or
    `none` when no closing quote is reachable. -/
def litScan (q : Char) : List Char → Option (List Char)
  | [] => none
  | [c] => if c = q then some [] else none
  | c :: d :: rest2 =>
    if c = q then some []
    else if c = bslash then
      if dotNoNl d then (litScan q rest2).map (fun v => c :: d :: v) else none
    else (litScan q (d :: rest2)).map (fun v => c :: v)

/-- One string-literal result of `extractStringsFromContent`. -/
structure StrMatch where
  value : List Char
  start : Nat
  fullMatch : List Char
deriving DecidableEq, Repr

/-- The global-regex scan of `extractStringsFromContent`: left to right,
    restarting after each match (fuelled by the content length; each
    step consumes at least one character). -/
def extractStringsGo : Nat → List Char → Nat → List StrMatch
  | 0, _, _ => []
  | _ + 1, [], _ => []
  | fuel + 1, c :: rest, pos =>
    if c = dquote || c = squote then
      match litScan c rest with
      | some v =>
        ⟨v, pos + 1, c :: (v ++ [c])⟩ ::
          extractStringsGo fuel (rest.drop (v.length + 1)) (pos + v.length + 2)
      | none => extractStringsGo fuel rest (pos + 1)
    else extractStringsGo fuel rest (pos + 1)

/-- `extractStringsFromContent` from `matcher.ts`. -/
def extractStringsFromContent (content : List Char) : List StrMatch :=
  extractStringsGo content.length content 0

/-- Match of the alternation regex `(?:name1|…|nameN)\s*\(` anchored at
    the head of `l` (alternatives tried in order, with backtracking
    across alternatives): returns the match length. -/
def callStartAt : List (List Char) → List Char → Option Nat
  | [], _ => none
  | n :: ns, l =>
    if n.isPrefixOf l then
      let rest := l.drop n.length
      let w := (rest.takeWhile jsWs).length
      if rest[w]? = some lparen then some (n.length + w + 1)
      else callStartAt ns l
    else callStartAt ns l

/-- The scan loop of `findClassFunctionMatches`: find each occurrence of
    a configured call head, run the balanced scan from its opening
    parenthesis (skipping the call entirely when it never rebalances),
    extract all string literals from the argument text, drop empty and
    whitespace-only values, and tag the rest with absolute offsets.
    Scanning resumes right after the opening parenthesis (the regex
    `lastIndex`), exactly as in the source. -/
def ffmGo (names : List (List Char)) : Nat → List Char → Nat → List ClassMatch
  | 0, _, _ => []
  | _ + 1, [], _ => []
  | fuel + 1, c :: rest, off =>
    match callStartAt names (c :: rest) with
    | none => ffmGo names fuel rest (off + 1)
    | some m =>
      let results :=
        match extractBalancedContent (c :: rest) (m - 1) with
        | none => []
        | some (content, _) =>
          (extractStringsFromContent content).filterMap fun sm =>
            if sm.value = [] || sm.value.all jsWs then none
            else some ⟨sm.fullMatch, sm.value, off, off + m + sm.start⟩
      results ++ ffmGo names fuel ((c :: rest).drop m) (off + m)

/-- `findClassFunctionMatches` from `matcher.ts`. -/
def findClassFunctionMatches (text : List Char) (functionNames : List (List Char)) :
    List ClassMatch :=
  if functionNames = [] then []
  else ffmGo functionNames text.length text 0

/-- `findClassMatches` from `matcher.ts`, with the per-pattern raw regex
    results supplied externally (one raw list per configured pattern, in
    pattern order): pattern spans first, then function-call spans, then
    sort by `startOffset` and deduplicate. -/
def findClassMatches (patternRaws : List (List RawMatch)) (text : List Char)
    (functionNames : List (List Char)) : List ClassMatch :=
  findClassMatchesCore ((patternRaws.map findMatchesForPattern).flatten)
    (findClassFunctionMatches text functionNames)

/-! ## C6: the balanced-content scan -/

theorem balScan_spec :
    ∀ (l : List Char) (depth : Nat) (inStr : Option Char) (esc : Bool) (n : Nat),
      balScan l depth inStr esc = some n →
      1 ≤ n ∧ n ≤ l.length ∧ l[n - 1]? = some rparen := by
  intro l
  induction l with
  | nil => intro depth inStr esc n h; simp [balScan] at h
  | cons c rest ih =>
    intro depth inStr esc n h
    have step : ∀ (d : Nat) (i : Option Char) (e : Bool),
        (balScan rest d i e).map (· + 1) = some n →
        1 ≤ n ∧ n ≤ (c :: rest).length ∧ (c :: rest)[n - 1]? = some rparen := by
      intro d i e hm
      rcases Option.map_eq_some'.mp hm with ⟨n', hn', rfl⟩
      obtain ⟨h1, h2, h3⟩ := ih d i e n' hn'
      refine ⟨by omega, by simp; omega, ?_⟩
      obtain ⟨k, rfl⟩ : ∃ k, n' = k + 1 := ⟨n' - 1, by omega⟩
      simpa using h3
    cases esc with
    | true =>
      simp only [balScan, if_pos rfl] at h
      exact step _ _ _ h
    | false =>
      rcases inStr with _ | q
      · simp only [balScan, Bool.false_eq_true, if_false] at h
        split_ifs at h with h1 h2 h3 h4 h5
        · exact step _ _ _ h
        · exact step _ _ _ h
        · exact step _ _ _ h
        · simp only [Option.some.injEq] at h
          subst h
          exact ⟨le_refl 1, by simp, by simp [h4]⟩
        · exact step _ _ _ h
        · exact step _ _ _ h
      · simp only [balScan, Bool.false_eq_true, if_false] at h
        split_ifs at h with h1 h2
        · exact step _ _ _ h
        · exact step _ _ _ h
        · exact step _ _ _ h

/-- The general shape of a successful balanced scan. -/
theorem extractBalancedContent_spec (text : List Char) (i : Nat)
    (content : List Char) (e : Nat)
    (h : extractBalancedContent text i = some (content, e)) :
    text[i]? = some lparen ∧ text[e]? = some rparen ∧
    content = (text.drop (i + 1)).take (e - i - 1) ∧ i < e ∧ e < text.length := by
  simp only [extractBalancedContent] at h
  split_ifs at h with h1
  case _ =>
    rw [not_not] at h1
    rcases hbs : balScan (text.drop (i + 1)) 1 none false with _ | n
    · rw [hbs] at h; simp at h
    · rw [hbs] at h
      simp only [Option.some.injEq, Prod.mk.injEq] at h
      obtain ⟨rfl, rfl⟩ := h
      obtain ⟨hn1, hn2, hn3⟩ := balScan_spec _ 1 none false n hbs
      rw [List.length_drop] at hn2
      have hlen : i < text.length := by
        by_contra hge
        rw [List.getElem?_eq_none (by omega)] at h1
        simp at h1
      refine ⟨h1, ?_, ?_, by omega, by omega⟩
      · have hd := List.getElem?_drop text (i + 1) (n - 1)
        rw [hn3] at hd
        have heq : i + 1 + (n - 1) = i + n := by omega
        rw [heq] at hd
        exact hd.symm
      · congr 1
        omega

/-- C6: `extractBalancedContent` returns exactly the text strictly
    between the opening parenthesis at the given index and its matching
    closing parenthesis, ignoring parentheses inside quoted regions and
    honouring backslash escapes; concretely `"(foo(bar))"` at 0 yields
    `"foo(bar)"` (closing parenthesis at index 9), `"(unbalanced"`
    yields no result, and a parenthesis inside quotes is not counted. -/
theorem C6_extractBalancedContent :
    extractBalancedContent ("(foo(bar))".toList) 0 = some ("foo(bar)".toList, 9) ∧
    extractBalancedContent ("(unbalanced".toList) 0 = none ∧
    extractBalancedContent ("(a\")\"b)".toList) 0 = some ("a\")\"b".toList, 6) ∧
    (∀ (text : List Char) (i : Nat) (content : List Char) (e : Nat),
      extractBalancedContent text i = some (content, e) →
      text[i]? = some lparen ∧ text[e]? = some rparen ∧
      content = (text.drop (i + 1)).take (e - i - 1) ∧ i < e ∧ e < text.length) :=
  ⟨by decide, by decide, by decide, extractBalancedContent_spec⟩

/-- Witness for the universally quantified part of C6. -/
theorem C6_extractBalancedContent_witness :
    extractBalancedContent ("(x)".toList) 0 = some (['x'], 2) ∧
    ("(x)".toList)[0]? = some lparen ∧ ("(x)".toList)[2]? = some rparen ∧
    (['x'] : List Char) = (("(x)".toList).drop 1).take 1 ∧ 0 < 2 ∧
    2 < ("(x)".toList).length := by
  refine ⟨by decide, ?_⟩
  have := C6_extractBalancedContent.2.2.2 ("(x)".toList) 0 ['x'] 2 (by decide)
  simpa using this

/-! ## C5/C10: the call-argument extractor -/

theorem litScan_length (q : Char) :
    ∀ (n : Nat) (l : List Char), l.length ≤ n → ∀ v, litScan q l = some v →
      v.length + 1 ≤ l.length := by
  intro n
  induction n with
  | zero =>
    intro l hl v h
    cases l with
    | nil => simp [litScan] at h
    | cons c t => simp at hl
  | succ n ih =>
    intro l hl v h
    cases l with
    | nil => simp [litScan] at h
    | cons c t =>
      cases t with
      | nil =>
        simp only [litScan] at h
        split_ifs at h
        simp only [Option.some.injEq] at h
        subst h
        simp
      | cons d rest2 =>
        simp only [litScan] at h
        split_ifs at h with h1 h2 h3
        · simp only [Option.some.injEq] at h
          subst h
          simp
        · rcases Option.map_eq_some'.mp h with ⟨v', hv', rfl⟩
          have := ih rest2 (by simp at hl ⊢; omega) v' hv'
          simp only [List.length_cons]
          omega
        · rcases Option.map_eq_some'.mp h with ⟨v', hv', rfl⟩
          have := ih (d :: rest2) (by simp at hl ⊢; omega) v' hv'
          simp only [List.length_cons] at this ⊢
          omega

theorem extractStringsGo_bounds :
    ∀ (fuel : Nat) (l : List Char) (pos : Nat) (sm : StrMatch),
      sm ∈ extractStringsGo fuel l pos →
      pos + 1 ≤ sm.start ∧ sm.start + sm.value.length + 1 ≤ pos + l.length := by
  intro fuel
  induction fuel with
  | zero => intro l pos sm h; simp [extractStringsGo] at h
  | succ fuel ih =>
    intro l pos sm h
    cases l with
    | nil => simp [extractStringsGo] at h
    | cons c rest =>
      simp only [extractStringsGo] at h
      split_ifs at h with hq
      · rcases hls : litScan c rest with _ | v
        · rw [hls] at h
          have := ih rest (pos + 1) sm h
          simp only [List.length_cons]
          omega
        · rw [hls] at h
          have hlit := litScan_length c rest.length rest (le_refl _) v hls
          rcases List.mem_cons.mp h with rfl | h
          · simp only [List.length_cons]
            omega
          · have hrec := ih _ _ sm h
            have hdrop : (rest.drop (v.length + 1)).length = rest.length - (v.length + 1) :=
              List.length_drop _ _
            rw [hdrop] at hrec
            simp only [List.length_cons]
            omega
      · have := ih rest (pos + 1) sm h
        simp only [List.length_cons]
        omega

theorem callStartAt_bounds :
    ∀ (names : List (List Char)) (l : List Char) (m : Nat),
      callStartAt names l = some m → 1 ≤ m ∧ m ≤ l.length := by
  intro names
  induction names with
  | nil => intro l m h; simp [callStartAt] at h
  | cons n ns ih =>
    intro l m h
    simp only [callStartAt] at h
    split_ifs at h with h1 h2
    · simp only [Option.some.injEq] at h
      subst h
      have hpre : n.length ≤ l.length :=
        ( List.isPrefixOf_iff_prefix.mp h1).length_le
      obtain ⟨hw, _⟩ := List.getElem?_eq_some.mp h2
      rw [List.length_drop] at hw
      omega
    · exact ih l m h
    · exact ih l m h

/-- Every span emitted by the call-argument scanner has a non-empty,
    non-whitespace-only class string, and its end offset stays within
    `off + rem.length`; moreover `startOffset ≤ classStartOffset`. -/
theorem ffmGo_spec :
    ∀ (fuel : Nat) (names : List (List Char)) (rem : List Char) (off : Nat)
      (m : ClassMatch), m ∈ ffmGo names fuel rem off →
      m.classString ≠ [] ∧ m.classString.all jsWs = false ∧
      m.startOffset ≤ m.classStartOffset ∧
      m.classStartOffset + m.classString.length ≤ off + rem.length ∧
      off ≤ m.startOffset := by
  intro fuel
  induction fuel with
  | zero => intro names rem off m h; simp [ffmGo] at h
  | succ fuel ih =>
    intro names rem off m h
    cases rem with
    | nil => simp [ffmGo] at h
    | cons c rest =>
      simp only [ffmGo] at h
      rcases hcs : callStartAt names (c :: rest) with _ | mm
      · rw [hcs] at h
        obtain ⟨p1, p2, p3, p4, p5⟩ := ih names rest (off + 1) m h
        exact ⟨p1, p2, p3, by simp only [List.length_cons]; omega, by omega⟩
      · rw [hcs] at h
        obtain ⟨hmm1, hmm2⟩ := callStartAt_bounds names (c :: rest) mm hcs
        rcases List.mem_append.mp h with h | h
        · rcases hbc : extractBalancedContent (c :: rest) (mm - 1) with _ | pr
          · rw [hbc] at h; simp at h
          · rw [hbc] at h
            obtain ⟨content, endIdx⟩ := pr
            rcases List.mem_filterMap.mp h with ⟨sm, hsm, hok⟩
            split_ifs at hok with hempty
            simp only [Option.some.injEq] at hok
            subst hok
            simp only [Bool.or_eq_true, decide_eq_true_eq, not_or,
              Bool.not_eq_true] at hempty
            obtain ⟨hbc1, hbc2, hbc3, hbc4, hbc5⟩ :=
              extractBalancedContent_spec _ _ _ _ hbc
            have hcl : content.length ≤ (c :: rest).length - mm := by
              rw [hbc3, List.length_take, List.length_drop]
              have : mm - 1 + 1 = mm := by omega
              rw [this]
              omega
            obtain ⟨hsb1, hsb2⟩ := extractStringsGo_bounds _ _ _ _ hsm
            refine ⟨hempty.1, hempty.2, by simp; omega, ?_, by simp⟩
            simp only [List.length_cons] at hmm2 hcl ⊢
            omega
        · obtain ⟨p1, p2, p3, p4, p5⟩ := ih names _ _ m h
          rw [List.length_drop] at p4
          refine ⟨p1, p2, p3, ?_, ?_⟩ <;>
            simp only [List.length_cons] at hmm2 p4 p5 ⊢ <;> omega

/-! ## C4: merging and deduplication of spans -/

/-- The deduplication key of `deduplicateMatches`
    (`` `${classStartOffset}-${classString.length}` ``). -/
def mkey (m : ClassMatch) : Nat × Nat := (m.classStartOffset, m.classString.length)

theorem matchCmp_asym (a b : ClassMatch) (h : matchCmp a b < 0) : 0 ≤ matchCmp b a := by
  simp only [matchCmp] at *
  omega

theorem matchCmp_trans (a b c : ClassMatch)
    (h1 : matchCmp a b < 0) (h2 : matchCmp b c < 0) : matchCmp a c < 0 := by
  simp only [matchCmp] at *
  omega

theorem dedupMG_sublist :
    ∀ (l : List ClassMatch) (seen : List (Nat × Nat)),
      (dedupMatchesGo l seen).Sublist l := by
  intro l
  induction l with
  | nil => intro seen; simp [dedupMatchesGo]
  | cons m rest ih =>
    intro seen
    simp only [dedupMatchesGo]
    split_ifs with h
    · exact (ih seen).cons _
    · exact (ih _).cons₂ _

theorem dedupMG_key_notmem :
    ∀ (l : List ClassMatch) (seen : List (Nat × Nat)) (m : ClassMatch),
      m ∈ dedupMatchesGo l seen → mkey m ∉ seen := by
  intro l
  induction l with
  | nil => intro seen m h; simp [dedupMatchesGo] at h
  | cons x rest ih =>
    intro seen m h
    simp only [dedupMatchesGo] at h
    split_ifs at h with hx
    · exact ih seen m h
    · rcases List.mem_cons.mp h with rfl | h
      · exact hx
      · intro hmem
        exact ih _ m h (List.mem_cons.mpr (Or.inr hmem))

theorem dedupMG_pairwise :
    ∀ (l : List ClassMatch) (seen : List (Nat × Nat)),
      (dedupMatchesGo l seen).Pairwise (fun a b => mkey a ≠ mkey b) := by
  intro l
  induction l with
  | nil => intro seen; simp [dedupMatchesGo]
  | cons x rest ih =>
    intro seen
    simp only [dedupMatchesGo]
    split_ifs with hx
    · exact ih seen
    · refine List.pairwise_cons.mpr ⟨?_, ih _⟩
      intro y hy hkey
      exact dedupMG_key_notmem _ _ y hy (by rw [← hkey]; exact List.mem_cons_self _ _)

theorem dedupMG_coverage :
    ∀ (l : List ClassMatch) (seen : List (Nat × Nat)) (m : ClassMatch),
      m ∈ l → mkey m ∈ seen ∨ ∃ m', m' ∈ dedupMatchesGo l seen ∧ mkey m' = mkey m := by
  intro l
  induction l with
  | nil => intro seen m h; simp at h
  | cons x rest ih =>
    intro seen m h
    simp only [dedupMatchesGo]
    split_ifs with hx
    · rcases List.mem_cons.mp h with rfl | h
      · exact Or.inl hx
      · exact ih seen m h
    · rcases List.mem_cons.mp h with rfl | h
      · exact Or.inr ⟨m, List.mem_cons_self _ _, rfl⟩
      · rcases ih (mkey x :: seen) m h with hs | ⟨m', hm', hk⟩
        · rcases List.mem_cons.mp hs with he | hs
          · exact Or.inr ⟨x, List.mem_cons_self _ _, he.symm⟩
          · exact Or.inl hs
        · exact Or.inr ⟨m', List.mem_cons.mpr (Or.inr hm'), hk⟩

/-- The first element carrying its key is kept. -/
theorem dedupMG_keep_first :
    ∀ (l1 : List ClassMatch) (m : ClassMatch) (l2 : List ClassMatch)
      (seen : List (Nat × Nat)),
      (∀ x ∈ l1, mkey x ≠ mkey m) → mkey m ∉ seen →
      m ∈ dedupMatchesGo (l1 ++ m :: l2) seen := by
  intro l1
  induction l1 with
  | nil =>
    intro m l2 seen _ hseen
    simp only [List.nil_append, dedupMatchesGo]
    rw [if_neg (by exact hseen)]
    exact List.mem_cons_self _ _
  | cons x rest ih =>
    intro m l2 seen hkeys hseen
    simp only [List.cons_append, dedupMatchesGo]
    have hxm : mkey x ≠ mkey m := hkeys x (List.mem_cons_self _ _)
    split_ifs with hx
    · exact ih m l2 seen (fun y hy => hkeys y (List.mem_cons.mpr (Or.inr hy))) hseen
    · refine List.mem_cons.mpr (Or.inr ?_)
      refine ih m l2 _ (fun y hy => hkeys y (List.mem_cons.mpr (Or.inr hy))) ?_
      intro hmem
      rcases List.mem_cons.mp hmem with he | hmem
      · exact hxm he.symm
      · exact hseen hmem

/-- The head of a `dropWhile` fails the predicate. -/
theorem dropWhile_head_not {α : Type} (p : α → Bool) :
    ∀ (l : List α) (x : α) (t : List α), l.dropWhile p = x :: t → p x = false := by
  intro l
  induction l with
  | nil => intro x t h; simp [List.dropWhile] at h
  | cons a l ih =>
    intro x t h
    rw [List.dropWhile_cons] at h
    split_ifs at h with ha
    · exact ih x t h
    · injection h with h1 _
      subst h1
      simpa using ha

/-- When a pattern span `p` and a function span `f` carry the same
    deduplication key, are the only carriers of that key, and `p` does
    not start after `f`, the pattern span is the one kept. -/
theorem patternWins (P F : List ClassMatch) (p f : ClassMatch)
    (hp : p ∈ P) (hf : f ∈ F) (hkey : mkey p = mkey f) (hne : p ≠ f)
    (hle : p.startOffset ≤ f.startOffset)
    (honly : ∀ q ∈ P ++ F, mkey q = mkey p → q = p ∨ q = f)
    (hpF : p ∉ F) (hfP : f ∉ P) :
    p ∈ findClassMatchesCore P F ∧ f ∉ findClassMatchesCore P F := by
  have hperm := jsSort_perm matchCmp (P ++ F)
  have hpair := jsSort_pairwise matchCmp matchCmp_asym matchCmp_trans (P ++ F)
  set s := jsSort matchCmp (P ++ F) with hs
  have hpmem : p ∈ s := hperm.mem_iff.mpr (List.mem_append_left F hp)
  set pr : ClassMatch → Bool := fun q => !decide (mkey q = mkey p) with hpr
  set A := List.takeWhile pr s with hA
  have hsplit : A ++ s.dropWhile pr = s := List.takeWhile_append_dropWhile pr s
  have hAfree : ∀ y ∈ A, mkey y ≠ mkey p := by
    intro y hy
    have := List.mem_takeWhile_imp hy
    simpa [hpr] using this
  have hrest_ne : s.dropWhile pr ≠ [] := by
    intro hnil
    have hall := List.dropWhile_eq_nil_iff.mp hnil
    have := hall p hpmem
    simp [hpr] at this
  obtain ⟨x0, B, hx0B⟩ := List.exists_cons_of_ne_nil hrest_ne
  have hx0key : mkey x0 = mkey p := by
    have := dropWhile_head_not pr s x0 B hx0B
    simpa [hpr] using this
  have hsA : s = A ++ x0 :: B := by rw [hx0B] at hsplit; exact hsplit.symm
  have hx0mem : x0 ∈ s := by
    rw [hsA]
    exact List.mem_append_right _ (List.mem_cons_self _ _)
  have hx0L : x0 ∈ P ++ F := hperm.mem_iff.mp hx0mem
  rcases honly x0 hx0L hx0key with hx0e | hx0e
  · -- the first key-carrying element of the sorted list is `p`
    subst hx0e
    have hpin : x0 ∈ findClassMatchesCore P F := by
      show x0 ∈ dedupMatchesGo s []
      rw [hsA]
      exact dedupMG_keep_first _ x0 B [] hAfree (by simp)
    refine ⟨hpin, ?_⟩
    intro hfin
    have hpw := dedupMG_pairwise s []
    have hsymm : Symmetric (fun a b : ClassMatch => mkey a ≠ mkey b) := by
      intro a b h he
      exact h he.symm
    exact (hpw.forall hsymm hpin hfin hne) hkey
  · -- the first key-carrying element would be `f`: impossible
    exfalso
    subst hx0e
    have hpB : p ∈ B := by
      have hmem : p ∈ s := hpmem
      rw [hsA] at hmem
      rcases List.mem_append.mp hmem with hA2 | hfb
      · exact absurd rfl (hAfree p hA2)
      · rcases List.mem_cons.mp hfb with he | hB
        · exact absurd he hne
        · exact hB
    obtain ⟨j, hj, hjp⟩ := List.mem_iff_getElem.mp hpB
    have hgf : s[A.length]? = some x0 := by
      conv_lhs => rw [hsA]
      rw [List.getElem?_append_right (le_refl _)]
      simp
    have hgp : s[A.length + 1 + j]? = some p := by
      conv_lhs => rw [hsA]
      rw [List.getElem?_append_right (by omega)]
      have heq : A.length + 1 + j - A.length = j + 1 := by omega
      rw [heq]
      simp only [List.getElem?_cons_succ]
      rw [List.getElem?_eq_getElem hj, hjp]
    have hrel : 0 ≤ matchCmp p x0 := by
      rw [List.pairwise_iff_getElem] at hpair
      obtain ⟨hif, hef⟩ := List.getElem?_eq_some.mp hgf
      obtain ⟨hip, hep⟩ := List.getElem?_eq_some.mp hgp
      have hrw := hpair _ _ hif hip (by omega)
      rw [hef, hep] at hrw
      exact hrw
    have hEq : p.startOffset = x0.startOffset := by
      simp only [matchCmp] at hrel
      omega
    set pd : ClassMatch → Bool :=
      fun q => decide (q.startOffset = p.startOffset) && decide (mkey q = mkey p)
      with hpd
    have hfil := jsSort_filter matchCmp matchCmp_asym matchCmp_trans pd
      (by
        intro a b ha hb
        simp only [hpd, Bool.and_eq_true, decide_eq_true_eq] at ha hb
        simp only [matchCmp, ha.1, hb.1]
        omega)
      (by
        intro a b y ha hb
        simp only [hpd, Bool.and_eq_true, decide_eq_true_eq] at ha hb
        simp only [matchCmp, ha.1, hb.1])
      (P ++ F)
    have hAnil : A.filter pd = [] := by
      refine List.filter_eq_nil_iff.mpr ?_
      intro y hy hpy
      simp only [hpd, Bool.and_eq_true, decide_eq_true_eq] at hpy
      exact hAfree y hy hpy.2
    have hpdf : pd x0 = true := by
      simp only [hpd, Bool.and_eq_true, decide_eq_true_eq]
      exact ⟨hEq.symm, hx0key⟩
    have hLhead : (s.filter pd).head? = some x0 := by
      conv_lhs => rw [hsA]
      rw [List.filter_append, hAnil, List.nil_append, List.filter_cons_of_pos hpdf]
      rfl
    have hpd_p : pd p = true := by
      simp [hpd]
    have hPne : P.filter pd ≠ [] :=
      List.ne_nil_of_mem (List.mem_filter.mpr ⟨hp, hpd_p⟩)
    obtain ⟨q, tl, hq⟩ := List.exists_cons_of_ne_nil hPne
    have hqP : q ∈ P.filter pd := by rw [hq]; exact List.mem_cons_self _ _
    have hqp : q = p := by
      obtain ⟨hqmem, hqpd⟩ := List.mem_filter.mp hqP
      have hqkey : mkey q = mkey p := by
        simp only [hpd, Bool.and_eq_true, decide_eq_true_eq] at hqpd
        exact hqpd.2
      rcases honly q (List.mem_append_left F hqmem) hqkey with h | h
      · exact h
      · exact absurd (h ▸ hqmem) hfP
    have hRhead : ((P ++ F).filter pd).head? = some p := by
      rw [List.filter_append, hq, hqp]
      rfl
    rw [hfil] at hLhead
    rw [hLhead] at hRhead
    simp only [Option.some.injEq] at hRhead
    exact hne hRhead.symm

/-- Concrete spans for the C4 counterexample: a pattern span whose full
    match starts early but whose class text sits late (as with a rule
    like `<div[^>]*class="([^"]*)"`), and a function span starting later
    whose class text sits earlier. -/
def cxP : ClassMatch := ⟨['a'], ['a'], 0, 50⟩

def cxF : ClassMatch := ⟨['b'], ['b'], 10, 12⟩

/-- C4 counterexample: the merged list is sorted by `startOffset`, not by
    `classStartOffset` as the claim states — the output here is ordered
    `[cxP, cxF]` although their class start offsets are 50 and 12, so the
    result is not ascending in `classStartOffset`. -/
theorem C4_counterexample :
    findClassMatchesCore [cxP] [cxF] = [cxP, cxF] ∧
    (findClassMatchesCore [cxP] [cxF]).map ClassMatch.classStartOffset = [50, 12] ∧
    ¬ (findClassMatchesCore [cxP] [cxF]).Pairwise
        (fun a b => a.classStartOffset ≤ b.classStartOffset) :=
  ⟨by decide, by decide, by decide⟩

/-- C4 amended: `findClassMatches` merges pattern spans (first) with
    function spans (second), stable-sorts ascending by `startOffset`
    (the match start, not `classStartOffset`), and keeps the first-seen
    span per `(classStartOffset, classText length)` key: the output is
    nondecreasing in `startOffset`, has pairwise-distinct keys, consists
    of input spans, covers every input key, and when a pattern span and a
    function span are the only carriers of one key and the pattern span
    does not start after the function span, the pattern span wins. -/
theorem C4_merge_dedup (P F : List ClassMatch) :
    ((findClassMatchesCore P F).Pairwise (fun a b => a.startOffset ≤ b.startOffset)) ∧
    ((findClassMatchesCore P F).Pairwise (fun a b => mkey a ≠ mkey b)) ∧
    (∀ m ∈ findClassMatchesCore P F, m ∈ P ++ F) ∧
    (∀ m ∈ P ++ F, ∃ m', m' ∈ findClassMatchesCore P F ∧ mkey m' = mkey m) ∧
    (∀ p f : ClassMatch, p ∈ P → f ∈ F → mkey p = mkey f → p ≠ f →
      p.startOffset ≤ f.startOffset →
      (∀ q ∈ P ++ F, mkey q = mkey p → q = p ∨ q = f) →
      p ∉ F → f ∉ P →
      p ∈ findClassMatchesCore P F ∧ f ∉ findClassMatchesCore P F) := by
  refine ⟨?_, ?_, ?_, ?_, ?_⟩
  · have hpair := jsSort_pairwise matchCmp matchCmp_asym matchCmp_trans (P ++ F)
    have hsub : (findClassMatchesCore P F).Sublist (jsSort matchCmp (P ++ F)) :=
      dedupMG_sublist _ _
    refine (hpair.sublist hsub).imp ?_
    intro a b h
    simp only [matchCmp] at h
    omega
  · exact dedupMG_pairwise _ _
  · intro m hm
    have hsub := dedupMG_sublist (jsSort matchCmp (P ++ F)) []
    exact (jsSort_perm matchCmp (P ++ F)).mem_iff.mp (hsub.subset hm)
  · intro m hm
    have hm2 : m ∈ jsSort matchCmp (P ++ F) := (jsSort_perm _ _).mem_iff.mpr hm
    exact (dedupMG_coverage _ [] m hm2).resolve_left (by simp)
  · intro p f hp hf hkey hne hle honly hpF hfP
    exact patternWins P F p f hp hf hkey hne hle honly hpF hfP

/-- Concrete spans for the C4 witness: same key, pattern first. -/
def cwP : ClassMatch := ⟨['p'], ['a'], 5, 7⟩

def cwF : ClassMatch := ⟨['f'], ['a'], 9, 7⟩

/-- Witness for the amended C4 at a concrete input. -/
theorem C4_merge_dedup_witness :
    cwP ∈ [cwP] ∧ cwF ∈ [cwF] ∧ mkey cwP = mkey cwF ∧ cwP ≠ cwF ∧
    cwP.startOffset ≤ cwF.startOffset ∧
    cwP ∈ findClassMatchesCore [cwP] [cwF] ∧
    cwF ∉ findClassMatchesCore [cwP] [cwF] := by
  refine ⟨by decide, by decide, by decide, by decide, by decide, ?_⟩
  have h := (C4_merge_dedup [cwP] [cwF]).2.2.2.2 cwP cwF (by decide) (by decide)
    (by decide) (by decide) (by decide) (by decide) (by decide) (by decide)
  exact h

theorem firstIndexOfSub_le (sub : List Char) :
    ∀ (l : List Char) (k : Nat), firstIndexOfSub sub l = some k →
      k + sub.length ≤ l.length := by
  intro l
  induction l with
  | nil =>
    intro k h
    simp only [firstIndexOfSub] at h
    split_ifs at h with h1
    simp only [Option.some.injEq] at h
    subst h
    simpa using ( List.isPrefixOf_iff_prefix.mp h1).length_le
  | cons c t ih =>
    intro k h
    simp only [firstIndexOfSub] at h
    split_ifs at h with h1
    · simp only [Option.some.injEq] at h
      subst h
      simpa using ( List.isPrefixOf_iff_prefix.mp h1).length_le
    · rcases Option.map_eq_some'.mp h with ⟨k2, hk2, rfl⟩
      have := ih k2 hk2
      simp only [List.length_cons]
      omega

/-- C5: the call-argument extractor on the spec's concrete examples
    (empty literal dropped; both literals of the boolean-guarded call
    found with correct absolute offsets; an unbalanced call yields zero
    results; literals inside array literals and ternaries are found),
    together with the general guarantees that every produced span has a
    non-empty, non-whitespace-only class string lying inside the
    document. -/
theorem C5_extractCallArguments :
    ((findClassFunctionMatches ("cn(\"\")".toList) ["cn".toList]).map
      ClassMatch.classString = []) ∧
    ((findClassFunctionMatches
        ("cn(\"flex items-center\", isActive && \"bg-blue-500\")".toList)
        ["cn".toList]).map (fun m => (m.classString, m.classStartOffset)) =
      [("flex items-center".toList, 4), ("bg-blue-500".toList, 37)]) ∧
    (findClassFunctionMatches ("cn(\"unbalanced".toList) ["cn".toList] = []) ∧
    ((findClassFunctionMatches ("cn([\"a\", x ? \"b\" : \"c\"])".toList)
        ["cn".toList]).map (fun m => (m.classString, m.classStartOffset)) =
      [(['a'], 5), (['b'], 14), (['c'], 20)]) ∧
    (∀ (text : List Char) (names : List (List Char)) (m : ClassMatch),
      m ∈ findClassFunctionMatches text names →
      m.classString ≠ [] ∧ m.classString.all jsWs = false ∧
      m.classStartOffset + m.classString.length ≤ text.length) := by
  refine ⟨by decide, by decide, by decide, by decide, ?_⟩
  intro text names m hm
  unfold findClassFunctionMatches at hm
  split_ifs at hm with h
  · simp at hm
  · obtain ⟨p1, p2, _, p4, _⟩ := ffmGo_spec text.length names text 0 m hm
    exact ⟨p1, p2, by omega⟩

/-- Witness for the universally quantified part of C5. -/
theorem C5_extractCallArguments_witness :
    ∃ m, m ∈ findClassFunctionMatches ("cn(\"x\")".toList) ["cn".toList] ∧
      (m.classString ≠ [] ∧ m.classString.all jsWs = false ∧
        m.classStartOffset + m.classString.length ≤ ("cn(\"x\")".toList).length) := by
  refine ⟨⟨[dquote, 'x', dquote], ['x'], 0, 4⟩, by decide, ?_⟩
  exact C5_extractCallArguments.2.2.2.2 ("cn(\"x\")".toList) ["cn".toList] _ (by decide)

/-- C10: every span emitted by either extractor satisfies the Span
    invariant: `classStartOffset ≤ classEndOffset`, both lie within
    `[0, documentLength]`, and `classEndOffset - classStartOffset` is the
    class-text length (in the code `classEndOffset` is computed as
    `classStartOffset + classString.length`, which the statement uses
    directly).  For the pattern extractor the regex engine is an oracle:
    its raw matches are assumed to lie within the document, which
    `regex.exec` guarantees. -/
theorem C10_span_invariant :
    (∀ (docLen : Nat) (raws : List RawMatch),
      (∀ r ∈ raws, r.index + r.fullMatch.length ≤ docLen) →
      ∀ m ∈ findMatchesForPattern raws,
        m.classStartOffset ≤ m.classStartOffset + m.classString.length ∧
        m.classStartOffset + m.classString.length ≤ docLen ∧
        m.startOffset ≤ m.classStartOffset) ∧
    (∀ (text : List Char) (names : List (List Char)),
      ∀ m ∈ findClassFunctionMatches text names,
        m.classStartOffset ≤ m.classStartOffset + m.classString.length ∧
        m.classStartOffset + m.classString.length ≤ text.length ∧
        m.startOffset ≤ m.classStartOffset) := by
  constructor
  · intro docLen raws hraw m hm
    rcases List.mem_filterMap.mp hm with ⟨r, hr, hok⟩
    split at hok
    · simp at hok
    · rename_i cs hc
      split_ifs at hok with hemp
      split at hok
      · simp at hok
      · rename_i k hfi
        simp only [Option.some.injEq] at hok
        subst hok
        have hk := firstIndexOfSub_le cs r.fullMatch k hfi
        have hb := hraw r hr
        refine ⟨by omega, ?_, ?_⟩
        · show r.index + k + cs.length ≤ docLen
          omega
        · show r.index ≤ r.index + k
          omega
  · intro text names m hm
    unfold findClassFunctionMatches at hm
    split_ifs at hm with h
    · simp at hm
    · obtain ⟨_, _, p3, p4, _⟩ := ffmGo_spec text.length names text 0 m hm
      exact ⟨by omega, by omega, p3⟩

/-- Witness for C10 at concrete inputs (both hypotheses discharged). -/
theorem C10_span_invariant_witness :
    (∀ r ∈ [(⟨2, "c=\"ab\"".toList, some "ab".toList⟩ : RawMatch)],
      r.index + r.fullMatch.length ≤ 10) ∧
    (∀ m ∈ findMatchesForPattern [(⟨2, "c=\"ab\"".toList, some "ab".toList⟩ : RawMatch)],
      m.classStartOffset ≤ m.classStartOffset + m.classString.length ∧
      m.classStartOffset + m.classString.length ≤ 10 ∧
      m.startOffset ≤ m.classStartOffset) := by
  refine ⟨by decide, ?_⟩
  exact C10_span_invariant.1 10 [⟨2, "c=\"ab\"".toList, some "ab".toList⟩] (by decide)

/-! ## C7: sentinel placement -/

theorem sentinel_chars {t : Tok} (h : isSentinel t = true) :
    t ≠ [] ∧ ∀ c ∈ t, jsWs c = false := by
  simp only [isSentinel, Bool.or_eq_true, decide_eq_true_eq] at h
  rcases h with rfl | rfl
  · exact ⟨by simp, by decide⟩
  · exact ⟨by simp, by decide⟩

theorem wsFilter_subset :
    ∀ (ws : List Tok) (rem : List Nat) (w : Tok), w ∈ wsFilter ws rem → w ∈ ws := by
  intro ws rem
  suffices h : ∀ (ws : List Tok) (k : Nat) (w : Tok), w ∈ wsFilterGo rem ws k → w ∈ ws by
    intro w hw
    exact h ws 0 w hw
  intro ws
  induction ws with
  | nil => intro k w hw; simp [wsFilterGo] at hw
  | cons a t ih =>
    intro k w hw
    simp only [wsFilterGo] at hw
    split_ifs at hw with hk
    · exact List.mem_cons.mpr (Or.inr (ih (k + 1) w hw))
    · rcases List.mem_cons.mp hw with rfl | hw
      · exact List.mem_cons_self _ _
      · exact List.mem_cons.mpr (Or.inr (ih (k + 1) w hw))

theorem stitch_suffix :
    ∀ (cl : List Tok) (ws : List Tok) (t : Tok), cl.getLast? = some t →
      ∃ u w, stitch cl ws = u ++ (t ++ w) ∧ (w = [] ∨ w ∈ ws) := by
  intro cl
  induction cl with
  | nil => intro ws t h; simp at h
  | cons a rest ih =>
    intro ws t h
    cases rest with
    | nil =>
      simp only [List.getLast?_singleton, Option.some.injEq] at h
      subst h
      refine ⟨[], ws.headD [], by simp [stitch], ?_⟩
      cases ws with
      | nil => exact Or.inl rfl
      | cons w wt => exact Or.inr (by simp)
    | cons b rest2 =>
      rw [List.getLast?_cons_cons] at h
      obtain ⟨u, w, hu, hw⟩ := ih ws.tail t h
      refine ⟨a ++ ws.headD [] ++ u, w, ?_, ?_⟩
      · show a ++ ws.headD [] ++ stitch (b :: rest2) ws.tail = _
        rw [hu]
        simp [List.append_assoc]
      · rcases hw with rfl | hw
        · exact Or.inl rfl
        · cases ws with
          | nil => simp at hw
          | cons x xt => exact Or.inr (List.mem_cons.mpr (Or.inr hw))

theorem dropWhile_append_of_all {p : Char → Bool} :
    ∀ (a b : List Char), (∀ c ∈ a, p c = true) →
      (a ++ b).dropWhile p = b.dropWhile p := by
  intro a
  induction a with
  | nil => intro b _; simp
  | cons c t ih =>
    intro b h
    rw [List.cons_append, List.dropWhile_cons, if_pos (h c (by simp))]
    exact ih b (fun x hx => h x (by simp [hx]))

theorem dropWhile_of_head_false {p : Char → Bool} {l : List Char} {c : Char}
    (hh : l.head? = some c) (hc : p c = false) : l.dropWhile p = l := by
  cases l with
  | nil => simp at hh
  | cons a t =>
    simp only [List.head?_cons, Option.some.injEq] at hh
    subst hh
    rw [List.dropWhile_cons, if_neg (by simp [hc])]

theorem trimStartJS_nilrep (l : List Char) : trimStartJS l [] = l.dropWhile jsWs := by
  unfold trimStartJS
  split_ifs with h
  · cases l with
    | nil => rfl
    | cons c t =>
      rw [List.takeWhile_cons] at h
      split_ifs at h with hc
      rw [List.dropWhile_cons, if_neg (by simp [hc])]
  · simp

theorem trimEndJS_nilrep (l : List Char) :
    trimEndJS l [] = (l.reverse.dropWhile jsWs).reverse := by
  unfold trimEndJS
  rw [show ([] : List Char).reverse = [] from rfl, trimStartJS_nilrep]

theorem trimStartJS_nil (rep : List Char) : trimStartJS [] rep = [] := rfl

theorem trimEndJS_nil (rep : List Char) : trimEndJS [] rep = [] := rfl

/-- A suffix that starts with a non-whitespace character survives the
    leading trim. -/
theorem suffix_trimStartJS {t l : List Char} {c : Char}
    (hh : t.head? = some c) (hc : jsWs c = false) (hsuf : t.IsSuffix l) :
    t.IsSuffix (trimStartJS l []) := by
  rw [trimStartJS_nilrep]
  induction l with
  | nil =>
    have := List.IsSuffix.length_le hsuf
    cases t with
    | nil => simp at hh
    | cons a u => simp at this
  | cons a u ih =>
    rcases List.suffix_cons_iff.mp hsuf with rfl | hsuf2
    · rw [dropWhile_of_head_false hh hc]
    · rw [List.dropWhile_cons]
      split_ifs with ha
      · exact ih hsuf2
      · exact hsuf

/-- Trailing whitespace after a block ending in a non-whitespace
    character is exactly stripped. -/
theorem trimEndJS_strip (x t w : List Char) {c : Char}
    (hlast : t.getLast? = some c) (hc : jsWs c = false)
    (hw : ∀ d ∈ w, jsWs d = true) :
    trimEndJS (x ++ t ++ w) [] = x ++ t := by
  rw [trimEndJS_nilrep]
  have h1 : (x ++ t ++ w).reverse = w.reverse ++ (t.reverse ++ x.reverse) := by
    simp [List.reverse_append, List.append_assoc]
  rw [h1]
  rw [dropWhile_append_of_all w.reverse (t.reverse ++ x.reverse)
    (fun d hd => hw d (List.mem_reverse.mp hd))]
  have hrevh : t.reverse.head? = some c := by
    rw [List.head?_reverse]
    exact hlast
  have htrev : (t.reverse ++ x.reverse).head? = some c := by
    cases htr : t.reverse with
    | nil => rw [htr] at hrevh; simp at hrevh
    | cons a u =>
      rw [htr] at hrevh
      simp only [List.head?_cons, Option.some.injEq] at hrevh
      simp [htr, hrevh]
  rw [dropWhile_of_head_false htrev hc]
  simp

/-- If a sorted (pairwise) list contains a sentinel and the seen-set
    holds no sentinel text, the dedup-kept list is non-empty and ends in
    a sentinel. -/
theorem dedupGo_last_sent :
    ∀ (l : List (Tok × Option Int)) (seen : List Tok) (i0 : Nat),
      l.Pairwise (fun u v => 0 ≤ twCmp v u) →
      (∃ x ∈ l, isSentinel x.1 = true) →
      (∀ u ∈ seen, isSentinel u = false) →
      ∃ y, ((dedupGo l seen i0).1).getLast? = some y ∧ isSentinel y.1 = true := by
  intro l
  induction l with
  | nil => intro seen i0 _ hx _; simp at hx
  | cons hd rest ih =>
    obtain ⟨t, r⟩ := hd
    intro seen i0 hpair hx hseen
    by_cases hts : isSentinel t = true
    · have hall : ∀ z ∈ (t, r) :: rest, isSentinel z.1 = true := by
        intro z hz
        rcases List.mem_cons.mp hz with rfl | hz
        · exact hts
        · have hrel := (List.pairwise_cons.mp hpair).1 z hz
          by_contra hzs
          rw [Bool.not_eq_true] at hzs
          rw [twCmp_eq, if_neg (by simp [hzs]), if_pos hts] at hrel
          omega
      have htns : t ∉ seen := by
        intro hmem
        rw [hseen t hmem] at hts
        exact Bool.false_ne_true hts
      simp only [dedupGo, if_neg htns]
      set rec1 := (dedupGo rest (if r.isSome then t :: seen else seen) (i0 + 1)).1
        with hrec
      have hsub : rec1.Sublist rest := dedupGo_kept_sublist _ _ _
      have hne : ((t, r) :: rec1) ≠ [] := by simp
      refine ⟨((t, r) :: rec1).getLast hne, (List.getLast?_eq_getLast _ hne), ?_⟩
      refine hall _ ?_
      have := List.getLast_mem hne
      rcases List.mem_cons.mp this with he | hmem
      · rw [he]; exact List.mem_cons_self _ _
      · exact List.mem_cons.mpr (Or.inr (hsub.subset hmem))
    · have hx2 : ∃ x ∈ rest, isSentinel x.1 = true := by
        rcases hx with ⟨x, hxm, hxs⟩
        rcases List.mem_cons.mp hxm with rfl | hxm
        · exact absurd hxs hts
        · exact ⟨x, hxm, hxs⟩
      have hptail := (List.pairwise_cons.mp hpair).2
      by_cases hmem : t ∈ seen
      · simp only [dedupGo, if_pos hmem]
        exact ih seen (i0 + 1) hptail hx2 hseen
      · simp only [dedupGo, if_neg hmem]
        have hseen2 : ∀ u ∈ (if r.isSome then t :: seen else seen),
            isSentinel u = false := by
          intro u hu
          revert hu
          split_ifs with hr
          · intro hu
            rcases List.mem_cons.mp hu with rfl | hu
            · simpa using hts
            · exact hseen u hu
          · exact fun hu => hseen u hu
        obtain ⟨y, hy1, hy2⟩ := ih _ (i0 + 1) hptail hx2 hseen2
        have hne2 : (dedupGo rest (if r.isSome then t :: seen else seen) (i0 + 1)).1 ≠ [] := by
          intro hnil
          rw [hnil] at hy1
          simp at hy1
        obtain ⟨z, zs, hzz⟩ := List.exists_cons_of_ne_nil hne2
        rw [hzz] at hy1 ⊢
        rw [List.getLast?_cons_cons]
        exact ⟨y, hy1, hy2⟩

/-- The default-options main branch of `sortClasses`, written out. -/
theorem sortClasses_default_eq (s : List Char) (o : Tok → Option Int)
    (hs : s ≠ []) (hbb : containsBB s = false) (hws : s.all isWsClass = false) :
    sortClasses s o defaultOpts =
      trimEndJS (trimStartJS
        (stitch (sortClassList (popTrailingEmpty (splitCW s).1) o true).classList
          (wsFilter ((splitCW s).2.map (fun _ => ([' '] : Tok)))
            (sortClassList (popTrailingEmpty (splitCW s).1) o true).removedIndices)) []) [] := by
  simp only [sortClasses]
  rw [if_neg hs, if_neg (by simp [hbb])]
  rw [if_neg (by simp [defaultOpts, normalizeCW, hws])]
  simp [defaultOpts, normalizeCW, trimStartJS_nil, trimEndJS_nil]

theorem mem_of_getLast?' {α : Type} {l : List α} {a : α}
    (h : l.getLast? = some a) : a ∈ l := by
  cases l with
  | nil => simp at h
  | cons x t =>
    have hne : x :: t ≠ [] := by simp
    rw [List.getLast?_eq_getLast _ hne] at h
    simp only [Option.some.injEq] at h
    rw [← h]
    exact List.getLast_mem hne

/-- An oracle with no known ranks, for counterexamples. -/
def oNone : Tok → Option Int := fun _ => none

/-- C7 counterexample: `"... {{"` contains the token `...`, but the
    `{{` guard returns the string unchanged, so the output ends in
    `"{{"`, not in the sentinel. -/
theorem C7_counterexample :
    ("...".toList) ∈ popTrailingEmpty (splitCW ("... \x7b\x7b".toList)).1 ∧
    sortClasses ("... \x7b\x7b".toList) oNone defaultOpts = "... \x7b\x7b".toList ∧
    ¬ ("...".toList).IsSuffix (sortClasses ("... \x7b\x7b".toList) oNone defaultOpts) :=
  ⟨by decide, by decide, by decide⟩

/-- C7 amended: for default options, if the input does not contain the
    `{{` marker, contains the token `t` (one of `...` or `…`), and every
    sentinel token of the input equals `t`, then the output ends with
    `t`. -/
theorem C7_sentinel_last (s : List Char) (o : Tok → Option Int) (t : Tok)
    (hbb : containsBB s = false)
    (ht : t ∈ popTrailingEmpty (splitCW s).1)
    (hsent : isSentinel t = true)
    (huniq : ∀ u ∈ popTrailingEmpty (splitCW s).1, isSentinel u = true → u = t) :
    t.IsSuffix (sortClasses s o defaultOpts) := by
  obtain ⟨htne, htnws⟩ := sentinel_chars hsent
  have hs : s ≠ [] := by
    intro h
    subst h
    simp [splitCW, popTrailingEmpty] at ht
  have hws : s.all isWsClass = false := by
    by_contra hx
    rw [Bool.not_eq_false] at hx
    obtain ⟨c, rest, rfl⟩ := List.exists_cons_of_ne_nil hs
    simp only [List.all_cons, Bool.and_eq_true] at hx
    rw [splitCW_all_ws c rest hx.1 hx.2] at ht
    simp [popTrailingEmpty] at ht
    exact htne ht
  rw [sortClasses_default_eq s o hs hbb hws]
  have hlast : (sortClassList (popTrailingEmpty (splitCW s).1) o true).classList.getLast?
      = some t := by
    simp only [sortClassList, if_pos trivial]
    have hpw := reorderClasses_pairwise (popTrailingEmpty (splitCW s).1) o
    have hsentmem : ∃ x ∈ reorderClasses (popTrailingEmpty (splitCW s).1) o,
        isSentinel x.1 = true := by
      refine ⟨(t, o t), ?_, hsent⟩
      exact (reorderClasses_perm _ o).mem_iff.mpr (List.mem_map.mpr ⟨t, ht, rfl⟩)
    obtain ⟨y, hy1, hy2⟩ :=
      dedupGo_last_sent (reorderClasses (popTrailingEmpty (splitCW s).1) o) [] 0
        hpw hsentmem (by simp)
    have hymem := mem_of_getLast?' hy1
    have hysort := (dedupGo_kept_sublist _ [] 0).subset hymem
    have hyt : y.1 = t := huniq y.1 (reorderClasses_mem hysort).1 hy2
    rw [List.getLast?_map, hy1]
    simp [hyt]
  obtain ⟨u, w, hstitch, hw⟩ := stitch_suffix _ _ t hlast
  rw [hstitch]
  have hwws : ∀ d ∈ w, jsWs d = true := by
    rcases hw with rfl | hw
    · intro d hd; simp at hd
    · have hmem := wsFilter_subset _ _ _ hw
      rcases List.mem_map.mp hmem with ⟨_, _, rfl⟩
      intro d hd
      simp only [List.mem_singleton] at hd
      subst hd
      decide
  obtain ⟨a, u0, rfl⟩ : ∃ a u0, t = a :: u0 := by
    cases t with
    | nil => exact absurd rfl htne
    | cons a u0 => exact ⟨a, u0, rfl⟩
  have haws : jsWs a = false := htnws a (by simp)
  have hcLne : (a :: u0) ≠ [] := by simp
  have hcLws : jsWs ((a :: u0).getLast hcLne) = false :=
    htnws _ (List.getLast_mem hcLne)
  have hsuf1 : ((a :: u0) ++ w).IsSuffix (u ++ ((a :: u0) ++ w)) :=
    List.suffix_append _ _
  have hsuf2 := suffix_trimStartJS (t := (a :: u0) ++ w) (c := a)
    (by simp) haws hsuf1
  obtain ⟨x, hx⟩ := hsuf2
  rw [← hx]
  rw [show x ++ ((a :: u0) ++ w) = x ++ (a :: u0) ++ w from
    (List.append_assoc x (a :: u0) w).symm]
  rw [trimEndJS_strip x (a :: u0) w (List.getLast?_eq_getLast _ hcLne) hcLws hwws]
  exact List.suffix_append x (a :: u0)

/-- A concrete oracle with one known rank, for the C7 witness. -/
def oC7 : Tok → Option Int := fun t => if t = ['a'] then some 1 else none

/-- Witness for the amended C7 at a concrete input. -/
theorem C7_sentinel_last_witness :
    containsBB ("... a".toList) = false ∧
    ("...".toList) ∈ popTrailingEmpty (splitCW ("... a".toList)).1 ∧
    isSentinel ("...".toList) = true ∧
    ("...".toList).IsSuffix (sortClasses ("... a".toList) oC7 defaultOpts) := by
  refine ⟨by decide, by decide, by decide, ?_⟩
  exact C7_sentinel_last ("... a".toList) oC7 ("...".toList)
    (by decide) (by decide) (by decide) (by decide)

/-! ## C8: idempotence -/

/-- Join tokens with single spaces (the canonical output shape). -/
def joinSp : List Tok → List Char
  | [] => []
  | [t] => t
  | t :: rest => t ++ ' ' :: joinSp rest

theorem joinSp_cons_cons (t u : Tok) (rest : List Tok) :
    joinSp (t :: u :: rest) = t ++ ' ' :: joinSp (u :: rest) := rfl

theorem joinSp_ne_nil {ts : List Tok} (hne : ts ≠ [])
    (htok : ∀ t ∈ ts, t ≠ []) : joinSp ts ≠ [] := by
  cases ts with
  | nil => exact absurd rfl hne
  | cons t rest =>
    cases rest with
    | nil => exact htok t (by simp)
    | cons u r2 =>
      rw [joinSp_cons_cons]
      intro h
      rcases List.append_eq_nil.mp h with ⟨_, h2⟩
      simp at h2

theorem joinSp_head? {t : Tok} {rest : List Tok} (ht : t ≠ []) :
    (joinSp (t :: rest)).head? = t.head? := by
  obtain ⟨a, u, rfl⟩ : ∃ a u, t = a :: u := by
    cases t with
    | nil => exact absurd rfl ht
    | cons a u => exact ⟨a, u, rfl⟩
  cases rest with
  | nil => rfl
  | cons v r2 => rw [joinSp_cons_cons]; rfl

theorem joinSp_getLast? :
    ∀ (ts : List Tok) (t : Tok), ts.getLast? = some t → t ≠ [] →
      (joinSp ts).getLast? = t.getLast? := by
  intro ts
  induction ts with
  | nil => intro t h; simp at h
  | cons a rest ih =>
    intro t h ht
    cases rest with
    | nil =>
      simp only [List.getLast?_singleton, Option.some.injEq] at h
      subst h
      rfl
    | cons b r2 =>
      rw [List.getLast?_cons_cons] at h
      rw [joinSp_cons_cons]
      have hrec := ih t h ht
      have hjne : joinSp (b :: r2) ≠ [] := by
        intro hx
        rw [hx] at hrec
        simp only [List.getLast?_nil] at hrec
        cases t with
        | nil => exact ht rfl
        | cons c u =>
          rw [List.getLast?_eq_getLast _ (by simp)] at hrec
          simp at hrec
      obtain ⟨z, zs, hz⟩ := List.exists_cons_of_ne_nil hjne
      rw [List.getLast?_append, hz, List.getLast?_cons_cons, ← hz, hrec]
      obtain ⟨c, u, hcu⟩ := List.exists_cons_of_ne_nil ht
      rw [hcu, List.getLast?_eq_getLast _ (by simp)]
      rfl

/-- `containsBB` only depends on an infix window. -/
theorem containsBB_mono :
    ∀ (t s : List Char), t.IsInfix s → containsBB t = true → containsBB s = true := by
  intro t s hinf hbb
  obtain ⟨u, v, huv⟩ := hinf
  subst huv
  induction u with
  | nil =>
    induction t with
    | nil => simp [containsBB] at hbb
    | cons a t2 iht =>
      cases t2 with
      | nil => simp [containsBB] at hbb
      | cons b t3 =>
        simp only [containsBB, Bool.or_eq_true] at hbb ⊢
        rcases hbb with hab | hbb
        · exact Or.inl (by simpa using hab)
        · refine Or.inr ?_
          have := iht hbb
          simpa using this
  | cons c u2 ihu =>
    have hL : u2 ++ t ++ v = u2 ++ (t ++ v) := List.append_assoc u2 t v
    show containsBB (c :: (u2 ++ t ++ v)) = true
    rw [hL]
    cases hcc : u2 ++ (t ++ v) with
    | nil =>
      exfalso
      rcases List.append_eq_nil.mp hcc with ⟨_, h2⟩
      rcases List.append_eq_nil.mp h2 with ⟨ht2, _⟩
      rw [ht2] at hbb
      simp [containsBB] at hbb
    | cons d rest =>
      simp only [containsBB, Bool.or_eq_true]
      refine Or.inr ?_
      rw [← hcc, ← hL]
      exact ihu

theorem splitCW_fst_ne_nil : ∀ s : List Char, (splitCW s).1 ≠ [] := by
  intro s
  cases s with
  | nil => simp [splitCW]
  | cons c rest =>
    rw [splitCW_cons]
    split
    · split <;> simp
    · split <;> simp

/-- `splitCW` reduction: a separator char extending the previous run. -/
theorem splitCW_ws_merge {c : Char} {rest : List Char} {cs : List Tok} {w0 : Tok}
    {ws : List Tok} (hc : isWsClass c = true)
    (h : splitCW rest = ([] :: cs, w0 :: ws)) :
    splitCW (c :: rest) = ([] :: cs, (c :: w0) :: ws) := by
  rw [splitCW_cons, if_pos hc, h]

/-- `splitCW` reduction: a separator char starting a new run. -/
theorem splitCW_ws_new {c : Char} {rest : List Char} {cs ws : List Tok}
    (hc : isWsClass c = true) (h : splitCW rest = (cs, ws))
    (hnm : (∀ cs', cs ≠ [] :: cs') ∨ ws = []) :
    splitCW (c :: rest) = ([] :: cs, [c] :: ws) := by
  rw [splitCW_cons, if_pos hc, h]
  rcases cs with _ | ⟨c0, cs'⟩
  · rfl
  · rcases c0 with _ | ⟨x, xs⟩
    · rcases ws with _ | ⟨w0, ws'⟩
      · rfl
      · rcases hnm with hnm | hnm
        · exact absurd rfl (hnm cs')
        · exact absurd hnm (by simp)
    · rfl

/-- `splitCW` reduction: a non-separator char extends the first class. -/
theorem splitCW_nonws_cons {c : Char} {rest : List Char} {h : Tok} {t ws : List Tok}
    (hc : isWsClass c = false) (heq : splitCW rest = (h :: t, ws)) :
    splitCW (c :: rest) = ((c :: h) :: t, ws) := by
  rw [splitCW_cons, if_neg (by simp [hc]), heq]

/-- Case destructor for `splitCW (c :: rest)`, covering the three
    reachable reduction shapes. -/
theorem splitCW_cases (c : Char) (rest : List Char) :
    (∃ cs w0 ws, isWsClass c = true ∧ splitCW rest = ([] :: cs, w0 :: ws) ∧
      splitCW (c :: rest) = ([] :: cs, (c :: w0) :: ws)) ∨
    (∃ cs ws, isWsClass c = true ∧ splitCW rest = (cs, ws) ∧
      ((∀ cs', cs ≠ [] :: cs') ∨ ws = []) ∧
      splitCW (c :: rest) = ([] :: cs, [c] :: ws)) ∨
    (∃ h t ws, isWsClass c = false ∧ splitCW rest = (h :: t, ws) ∧
      splitCW (c :: rest) = ((c :: h) :: t, ws)) := by
  obtain ⟨c0, cs', hsh⟩ := List.exists_cons_of_ne_nil (splitCW_fst_ne_nil rest)
  have hsp : splitCW rest = (c0 :: cs', (splitCW rest).2) := by
    rw [← hsh]
  by_cases hc : isWsClass c = true
  · rcases hc0 : c0 with _ | ⟨x, xs⟩
    · rcases hw : (splitCW rest).2 with _ | ⟨w0, ws'⟩
      · refine Or.inr (Or.inl ⟨[] :: cs', [], hc, ?_, Or.inr rfl, ?_⟩)
        · rw [hsp, hc0, hw]
        · exact splitCW_ws_new hc (by rw [hsp, hc0, hw]) (Or.inr rfl)
      · refine Or.inl ⟨cs', w0, ws', hc, ?_, ?_⟩
        · rw [hsp, hc0, hw]
        · exact splitCW_ws_merge hc (by rw [hsp, hc0, hw])
    · refine Or.inr (Or.inl ⟨(x :: xs) :: cs', (splitCW rest).2, hc, ?_,
        Or.inl (by simp), ?_⟩)
      · rw [hsp, hc0]
      · exact splitCW_ws_new hc (by rw [hsp, hc0]) (Or.inl (by simp))
  · rw [Bool.not_eq_true] at hc
    refine Or.inr (Or.inr ⟨c0, cs', (splitCW rest).2, hc, hsp, splitCW_nonws_cons hc hsp⟩)

/-- Splitting with captured separators: one more class than separator runs. -/
theorem splitCW_len : ∀ s : List Char, (splitCW s).1.length = (splitCW s).2.length + 1 := by
  intro s
  induction s with
  | nil => simp [splitCW]
  | cons c rest ih =>
    rcases splitCW_cases c rest with
      ⟨cs, w0, ws, _, hr, he⟩ | ⟨cs, ws, _, hr, hside, he⟩ | ⟨h, t, ws, _, hr, he⟩ <;>
      rw [hr] at ih <;> rw [he] <;> simp only [List.length_cons] at ih ⊢ <;> omega

/-- No class token of the split contains a separator-class character. -/
theorem splitCW_classes_nonws :
    ∀ (s : List Char) (c : Tok), c ∈ (splitCW s).1 →
      ∀ ch ∈ c, isWsClass ch = false := by
  intro s
  induction s with
  | nil => intro c hc ch hch; simp [splitCW] at hc; subst hc; simp at hch
  | cons a rest ih =>
    intro c hc ch hch
    rcases splitCW_cases a rest with
      ⟨cs, w0, ws, _, hr, he⟩ | ⟨cs, ws, _, hr, hside, he⟩ | ⟨h, t, ws, ha, hr, he⟩
    · refine ih c ?_ ch hch
      rw [he] at hc
      rw [hr]
      exact hc
    · rw [he] at hc
      rcases List.mem_cons.mp hc with rfl | hc
      · simp at hch
      · exact ih c (by rw [hr]; exact hc) ch hch
    · rw [he] at hc
      rcases List.mem_cons.mp hc with rfl | hc
      · rcases List.mem_cons.mp hch with rfl | hch2
        · exact ha
        · exact ih h (by rw [hr]; exact List.mem_cons_self _ _) ch hch2
      · exact ih c (by rw [hr]; exact List.mem_cons.mpr (Or.inr hc)) ch hch

/-- The first class of the split is a prefix of the string. -/
theorem splitCW_head_pre :
    ∀ (s : List Char) (h : Tok) (t : List Tok),
      (splitCW s).1 = h :: t → h.IsPrefix s := by
  intro s
  induction s with
  | nil =>
    intro h t hst
    simp only [splitCW, List.cons.injEq] at hst
    obtain ⟨rfl, rfl⟩ := hst
    exact List.nil_prefix
  | cons a rest ih =>
    intro h t hst
    rcases splitCW_cases a rest with
      ⟨cs, w0, ws, _, hr, he⟩ | ⟨cs, ws, _, hr, hside, he⟩ | ⟨h2, t2, ws, _, hr, he⟩ <;>
      rw [he] at hst <;> simp only [List.cons.injEq] at hst
    · obtain ⟨rfl, rfl⟩ := hst
      exact List.nil_prefix
    · obtain ⟨rfl, rfl⟩ := hst
      exact List.nil_prefix
    · obtain ⟨rfl, rfl⟩ := hst
      exact (List.cons_prefix_cons).mpr ⟨rfl, ih h2 t2 (by rw [hr])⟩

/-- Every class token of the split is an infix of the string. -/
theorem splitCW_classes_within :
    ∀ (s : List Char) (c : Tok), c ∈ (splitCW s).1 → c.IsInfix s := by
  intro s
  induction s with
  | nil => intro c hc; simp [splitCW] at hc; subst hc; exact List.nil_infix
  | cons a rest ih =>
    intro c hc
    rcases splitCW_cases a rest with
      ⟨cs, w0, ws, _, hr, he⟩ | ⟨cs, ws, _, hr, hside, he⟩ | ⟨h2, t2, ws, _, hr, he⟩
    · rw [he] at hc
      exact List.infix_cons (ih c (by rw [hr]; exact hc))
    · rw [he] at hc
      rcases List.mem_cons.mp hc with rfl | hc
      · exact List.nil_infix
      · exact List.infix_cons (ih c (by rw [hr]; exact hc))
    · rw [he] at hc
      rcases List.mem_cons.mp hc with rfl | hc
      · exact List.IsPrefix.isInfix ((List.cons_prefix_cons).mpr
          ⟨rfl, splitCW_head_pre rest h2 t2 (by rw [hr])⟩)
      · exact List.infix_cons (ih c (by rw [hr]; exact List.mem_cons.mpr (Or.inr hc)))

/-- Only the first and the last class of the split can be empty. -/
theorem splitCW_interior_ne :
    ∀ (s : List Char) (x : Tok), x ∈ ((splitCW s).1.tail).dropLast → x ≠ [] := by
  intro s
  induction s with
  | nil => intro x hx; simp [splitCW] at hx
  | cons a rest ih =>
    intro x hx
    rcases splitCW_cases a rest with
      ⟨cs, w0, ws, _, hr, he⟩ | ⟨cs, ws, _, hr, hside, he⟩ | ⟨h2, t2, ws, _, hr, he⟩
    · rw [he] at hx
      exact ih x (by rw [hr]; exact hx)
    · rw [he] at hx
      simp only [List.tail_cons] at hx
      -- `cs` is the whole previous class list; its head may be non-empty,
      -- its interior is covered by the induction hypothesis.
      rcases hcs : cs with _ | ⟨c0, cs'⟩
      · rw [hcs] at hx; simp at hx
      · rw [hcs] at hx
        cases cs' with
        | nil => simp at hx
        | cons c1 cs2 =>
          rw [List.dropLast_cons_of_ne_nil (by simp)] at hx
          rcases List.mem_cons.mp hx with rfl | hx
          · -- `x = c0`, the head of the previous class list.  Were it
            -- empty, the separator list would be non-empty (by the
            -- lengths) and the merge case would have fired instead,
            -- contradicting the fallback side condition.
            intro hxe
            subst hxe
            have hlen := splitCW_len rest
            rw [hr, hcs] at hlen
            simp only [List.length_cons] at hlen
            rcases hside with hside | hside
            · exact hside (c1 :: cs2) (by rw [hcs])
            · rw [hside] at hlen
              simp at hlen
          · exact ih x (by rw [hr, hcs]; simpa using hx)
    · rw [he] at hx
      exact ih x (by rw [hr]; simpa using hx)

/-- A string with a non-separator character has a non-empty class. -/
theorem splitCW_exists_nonempty :
    ∀ s : List Char, s.all isWsClass = false →
      ∃ tok ∈ (splitCW s).1, tok ≠ [] := by
  intro s
  induction s with
  | nil => intro h; simp at h
  | cons a rest ih =>
    intro hall
    simp only [List.all_cons, Bool.and_eq_false_iff] at hall
    rcases splitCW_cases a rest with
      ⟨cs, w0, ws, ha, hr, he⟩ | ⟨cs, ws, ha, hr, hside, he⟩ | ⟨h, t, ws, ha, hr, he⟩
    · have hrest : rest.all isWsClass = false := by
        rcases hall with h1 | h1
        · rw [ha] at h1; simp at h1
        · exact h1
      obtain ⟨tok, htm, htne⟩ := ih hrest
      rw [hr] at htm
      exact ⟨tok, by rw [he]; exact htm, htne⟩
    · have hrest : rest.all isWsClass = false := by
        rcases hall with h1 | h1
        · rw [ha] at h1; simp at h1
        · exact h1
      obtain ⟨tok, htm, htne⟩ := ih hrest
      rw [hr] at htm
      exact ⟨tok, by rw [he]; exact List.mem_cons.mpr (Or.inr htm), htne⟩
    · exact ⟨a :: h, by rw [he]; exact List.mem_cons_self _ _, by simp⟩

theorem mem_dropLast_or_getLast? {α : Type} :
    ∀ (l : List α) (x : α), x ∈ l → x ∈ l.dropLast ∨ l.getLast? = some x := by
  intro l
  induction l with
  | nil => intro x hx; simp at hx
  | cons a t ih =>
    intro x hx
    cases t with
    | nil =>
      simp only [List.mem_singleton] at hx
      subst hx
      exact Or.inr rfl
    | cons b t2 =>
      rcases List.mem_cons.mp hx with rfl | hx
      · exact Or.inl (by rw [List.dropLast_cons_of_ne_nil (by simp)]; simp)
      · rcases ih x hx with hd | hl
        · refine Or.inl ?_
          rw [List.dropLast_cons_of_ne_nil (by simp)]
          exact List.mem_cons.mpr (Or.inr hd)
        · exact Or.inr (by rw [List.getLast?_cons_cons]; exact hl)

theorem tail_dropLast {α : Type} (l : List α) : l.dropLast.tail = l.tail.dropLast := by
  cases l with
  | nil => rfl
  | cons a t =>
    cases t with
    | nil => rfl
    | cons b t2 =>
      rw [List.dropLast_cons_of_ne_nil (by simp)]
      rfl

/-- After popping a trailing empty class, every token after the first is
    non-empty. -/
theorem popTrailing_tail_ne (s : List Char) :
    ∀ x ∈ (popTrailingEmpty (splitCW s).1).tail, x ≠ [] := by
  intro x hx
  unfold popTrailingEmpty at hx
  split_ifs at hx with hlast
  · rw [tail_dropLast] at hx
    exact splitCW_interior_ne s x hx
  · rcases mem_dropLast_or_getLast? _ x hx with hd | hl
    · exact splitCW_interior_ne s x hd
    · -- `x` is the last of the tail, hence the last of the whole list,
      -- which is not `[]` in this branch.
      intro hxe
      subst hxe
      cases hct : (splitCW s).1 with
      | nil => exact splitCW_fst_ne_nil s hct
      | cons c0 cs =>
        rw [hct] at hl hlast
        simp only [List.tail_cons] at hl
        cases cs with
        | nil => simp at hl
        | cons c1 cs2 =>
          exact hlast (by rw [List.getLast?_cons_cons]; exact hl)

/-- The popped class list is a sublist of the split's class list. -/
theorem popTrailing_sublist (cs : List Tok) : (popTrailingEmpty cs).Sublist cs := by
  unfold popTrailingEmpty
  split_ifs
  · exact List.dropLast_sublist cs
  · exact List.Sublist.refl cs

/-- With a witnessed non-empty token, the popped class list is non-empty
    and still contains it. -/
theorem popTrailing_mem_of_ne {cs : List Tok} {tok : Tok}
    (htm : tok ∈ cs) (htne : tok ≠ []) : tok ∈ popTrailingEmpty cs := by
  unfold popTrailingEmpty
  split_ifs with hlast
  · rcases mem_dropLast_or_getLast? cs tok htm with hd | hl
    · exact hd
    · rw [hl] at hlast
      simp only [Option.some.injEq] at hlast
      exact absurd hlast htne
  · exact htm

theorem lenFilterMap {α β : Type} (f : α → Option β) :
    ∀ l : List α, (l.filterMap f).length = l.countP (fun x => (f x).isSome) := by
  intro l
  induction l with
  | nil => simp
  | cons a t ih =>
    rw [List.filterMap_cons, List.countP_cons]
    cases hf : f a with
    | none => simp [hf, ih]
    | some b => simp [hf, ih]

/-- Counting the hits of a Nodup in-bounds index set inside `range`. -/
theorem countP_range_mem (rem : List Nat) (W : Nat) (hnd : rem.Nodup)
    (hbd : ∀ r ∈ rem, 1 ≤ r ∧ r ≤ W) :
    (List.range W).countP (fun i => decide ((i + 1) ∈ rem)) = rem.length := by
  rw [List.countP_eq_length_filter]
  have hperm : ((List.range W).filter (fun i => decide ((i + 1) ∈ rem))).Perm
      (rem.map (fun r => r - 1)) := by
    refine (List.perm_ext_iff_of_nodup ?_ ?_).mpr ?_
    · exact (List.nodup_range W).filter _
    · refine List.Nodup.map_on ?_ hnd
      intro x hx y hy hxy
      have hbx := hbd x hx
      have hby := hbd y hy
      omega
    · intro i
      constructor
      · intro hi
        rw [List.mem_filter, List.mem_range] at hi
        refine List.mem_map.mpr ⟨i + 1, by simpa using hi.2, by omega⟩
      · intro hi
        obtain ⟨r, hrm, hri⟩ := List.mem_map.mp hi
        have hbr := hbd r hrm
        rw [List.mem_filter, List.mem_range]
        refine ⟨by omega, by simp only [decide_eq_true_eq]; rw [show i + 1 = r by omega]; exact hrm⟩

  rw [hperm.length_eq, List.length_map]

/-- Length of the filtered whitespace list: each removed index in range
    drops exactly one run. -/
theorem wsFilter_length (ws : List Tok) (rem : List Nat) (hnd : rem.Nodup)
    (hbd : ∀ r ∈ rem, 1 ≤ r ∧ r ≤ ws.length) :
    (wsFilter ws rem).length = ws.length - rem.length := by
  rw [wsFilter_eq, lenFilterMap]
  have hcong : (List.range ws.length).countP
      (fun i => (if (i + 1) ∈ rem then (none : Option Tok) else ws[i]?).isSome) =
      (List.range ws.length).countP (fun i => !decide ((i + 1) ∈ rem)) := by
    refine List.countP_congr ?_
    intro i hi
    rw [List.mem_range] at hi
    by_cases hm : (i + 1) ∈ rem
    · simp [hm]
    · simp [hm, List.getElem?_eq_getElem hi]
  rw [hcong]
  have htot := List.length_eq_countP_add_countP (fun i => decide ((i + 1) ∈ rem))
    (List.range ws.length)
  rw [List.length_range] at htot
  have hc2 : (List.range ws.length).countP (fun i => !decide ((i + 1) ∈ rem)) =
      (List.range ws.length).countP (fun a => decide ¬(decide ((a + 1) ∈ rem) = true)) := by
    refine List.countP_congr ?_
    intro i _
    by_cases hm : (i + 1) ∈ rem <;> simp [hm]
  rw [hc2]
  rw [countP_range_mem rem ws.length hnd hbd] at htot
  omega

/-- Kept entries and removed indices partition the dedup input. -/
theorem dedupGo_lengths :
    ∀ (l : List (Tok × Option Int)) (seen : List Tok) (i0 : Nat),
      (dedupGo l seen i0).1.length + (dedupGo l seen i0).2.length = l.length := by
  intro l
  induction l with
  | nil => intro seen i0; simp [dedupGo]
  | cons hd rest ih =>
    obtain ⟨t, r⟩ := hd
    intro seen i0
    by_cases hts : t ∈ seen
    · simp only [dedupGo, if_pos hts, List.length_cons]
      have := ih seen (i0 + 1)
      omega
    · simp only [dedupGo, if_neg hts, List.length_cons]
      have := ih (if r.isSome then t :: seen else seen) (i0 + 1)
      omega

/-- Removed indices are at least the starting index. -/
theorem dedupGo_removed_ge :
    ∀ (l : List (Tok × Option Int)) (seen : List Tok) (i0 : Nat),
      ∀ n ∈ (dedupGo l seen i0).2, i0 ≤ n := by
  intro l
  induction l with
  | nil => intro seen i0 n hn; simp [dedupGo] at hn
  | cons hd rest ih =>
    obtain ⟨t, r⟩ := hd
    intro seen i0 n hn
    by_cases hts : t ∈ seen
    · simp only [dedupGo, if_pos hts] at hn
      rcases List.mem_cons.mp hn with rfl | hn
      · omega
      · have := ih seen (i0 + 1) n hn
        omega
    · simp only [dedupGo, if_neg hts] at hn
      have := ih (if r.isSome then t :: seen else seen) (i0 + 1) n hn
      omega

/-- Removed indices are produced in strictly increasing order. -/
theorem dedupGo_removed_sorted :
    ∀ (l : List (Tok × Option Int)) (seen : List Tok) (i0 : Nat),
      (dedupGo l seen i0).2.Pairwise (· < ·) := by
  intro l
  induction l with
  | nil => intro seen i0; simp [dedupGo]
  | cons hd rest ih =>
    obtain ⟨t, r⟩ := hd
    intro seen i0
    by_cases hts : t ∈ seen
    · simp only [dedupGo, if_pos hts]
      refine List.pairwise_cons.mpr ⟨?_, ih seen (i0 + 1)⟩
      intro n hn
      have := dedupGo_removed_ge rest seen (i0 + 1) n hn
      omega
    · simp only [dedupGo, if_neg hts]
      exact ih _ (i0 + 1)

/-- Re-stitching with one single-space run between consecutive tokens. -/
theorem stitch_sp_pred :
    ∀ (cl ws : List Tok), cl ≠ [] → (∀ w ∈ ws, w = [' ']) →
      ws.length + 1 = cl.length → stitch cl ws = joinSp cl := by
  intro cl
  induction cl with
  | nil => intro ws h; exact absurd rfl h
  | cons t rest ih =>
    intro ws _ hall hlen
    cases rest with
    | nil =>
      simp only [List.length_cons, List.length_nil] at hlen
      have hw : ws = [] := List.length_eq_zero.mp (by omega)
      subst hw
      simp [stitch, joinSp]
    | cons u rest2 =>
      obtain ⟨w0, ws', rfl⟩ : ∃ w0 ws', ws = w0 :: ws' := by
        cases ws with
        | nil => simp at hlen
        | cons w0 t2 => exact ⟨w0, t2, rfl⟩
      have hw0 : w0 = [' '] := hall w0 (List.mem_cons_self _ _)
      show t ++ (w0 :: ws').headD [] ++ stitch (u :: rest2) (w0 :: ws').tail = _
      rw [joinSp_cons_cons]
      simp only [List.headD_cons, List.tail_cons, hw0]
      rw [ih ws' (by simp) (fun w hw => hall w (List.mem_cons.mpr (Or.inr hw)))
        (by simp only [List.length_cons] at hlen ⊢; omega)]
      simp

/-- Re-stitching with one single-space run per token (trailing run kept). -/
theorem stitch_sp_eq :
    ∀ (cl ws : List Tok), cl ≠ [] → (∀ w ∈ ws, w = [' ']) →
      ws.length = cl.length → stitch cl ws = joinSp cl ++ [' '] := by
  intro cl
  induction cl with
  | nil => intro ws h; exact absurd rfl h
  | cons t rest ih =>
    intro ws _ hall hlen
    obtain ⟨w0, ws', rfl⟩ : ∃ w0 ws', ws = w0 :: ws' := by
      cases ws with
      | nil => simp at hlen
      | cons w0 t2 => exact ⟨w0, t2, rfl⟩
    have hw0 : w0 = [' '] := hall w0 (List.mem_cons_self _ _)
    cases rest with
    | nil =>
      simp only [List.length_cons, List.length_nil] at hlen
      have hw : ws' = [] := List.length_eq_zero.mp (by omega)
      subst hw
      simp [stitch, joinSp, hw0]
    | cons u rest2 =>
      show t ++ (w0 :: ws').headD [] ++ stitch (u :: rest2) (w0 :: ws').tail = _
      rw [joinSp_cons_cons]
      simp only [List.headD_cons, List.tail_cons, hw0]
      rw [ih ws' (by simp) (fun w hw => hall w (List.mem_cons.mpr (Or.inr hw)))
        (by simp only [List.length_cons] at hlen ⊢; omega)]
      simp

/-- Every input text is represented among the kept entries (or was
    already seen). -/
theorem dedupGo_coverage :
    ∀ (l : List (Tok × Option Int)) (seen : List Tok) (i0 : Nat),
      ∀ x ∈ l, x.1 ∈ seen ∨ ∃ y ∈ (dedupGo l seen i0).1, y.1 = x.1 := by
  intro l
  induction l with
  | nil => intro seen i0 x hx; simp at hx
  | cons hd rest ih =>
    obtain ⟨t, r⟩ := hd
    intro seen i0 x hx
    by_cases hts : t ∈ seen
    · simp only [dedupGo, if_pos hts]
      rcases List.mem_cons.mp hx with rfl | hx
      · exact Or.inl hts
      · exact ih seen (i0 + 1) x hx
    · simp only [dedupGo, if_neg hts]
      rcases List.mem_cons.mp hx with rfl | hx
      · exact Or.inr ⟨(t, r), List.mem_cons_self _ _, rfl⟩
      · rcases ih (if r.isSome then t :: seen else seen) (i0 + 1) x hx with hs | ⟨y, hy, hyx⟩
        · by_cases hr : r.isSome = true
          · rw [if_pos hr] at hs
            rcases List.mem_cons.mp hs with he | hs
            · exact Or.inr ⟨(t, r), List.mem_cons_self _ _, he.symm⟩
            · exact Or.inl hs
          · rw [if_neg hr] at hs
            exact Or.inl hs
        · exact Or.inr ⟨y, List.mem_cons.mpr (Or.inr hy), hyx⟩

/-- On a list whose known-rank texts are distinct and disjoint from the
    seen-set, deduplication removes nothing. -/
theorem dedupGo_noremove :
    ∀ (l : List (Tok × Option Int)) (seen : List Tok) (i0 : Nat),
      l.Pairwise (fun x y => x.2.isSome = true → x.1 ≠ y.1) →
      (∀ x ∈ l, x.1 ∉ seen) →
      dedupGo l seen i0 = (l, []) := by
  intro l
  induction l with
  | nil => intro seen i0 _ _; simp [dedupGo]
  | cons hd rest ih =>
    obtain ⟨t, r⟩ := hd
    intro seen i0 hpair hns
    have hts : t ∉ seen := hns (t, r) (List.mem_cons_self _ _)
    simp only [dedupGo, if_neg hts]
    rcases List.pairwise_cons.mp hpair with ⟨hhd, htail⟩
    have hrec := ih (if r.isSome then t :: seen else seen) (i0 + 1) htail ?_
    · rw [hrec]
    · intro x hx
      by_cases hr : r.isSome = true
      · rw [if_pos hr]
        intro hmem
        rcases List.mem_cons.mp hmem with he | hmem
        · exact hhd x hx hr he.symm
        · exact hns x (List.mem_cons.mpr (Or.inr hx)) hmem
      · rw [if_neg hr]
        exact hns x (List.mem_cons.mpr (Or.inr hx))

/-- With no removed indices, the whitespace filter is the identity. -/
theorem wsFilter_rem_nil (ws : List Tok) : wsFilter ws [] = ws := by
  suffices h : ∀ (ws : List Tok) (k : Nat), wsFilterGo [] ws k = ws by
    exact h ws 0
  intro ws
  induction ws with
  | nil => intro k; rfl
  | cons w t ih =>
    intro k
    simp only [wsFilterGo, List.not_mem_nil, if_false]
    rw [ih (k + 1)]

/-- A non-empty all-non-separator string is a single class. -/
theorem splitCW_nonws_single :
    ∀ t : List Char, t ≠ [] → (∀ ch ∈ t, isWsClass ch = false) →
      splitCW t = ([t], []) := by
  intro t
  induction t with
  | nil => intro h; exact absurd rfl h
  | cons c rest ih =>
    intro _ hall
    have hc : isWsClass c = false := hall c (List.mem_cons_self _ _)
    cases rest with
    | nil =>
      rw [show splitCW [c] = splitCW ([c] : List Char) from rfl]
      rw [splitCW_nonws_cons hc (show splitCW [] = ([[]], []) from rfl)]
    | cons d rest2 =>
      have hrec := ih (by simp) (fun ch hch => hall ch (List.mem_cons.mpr (Or.inr hch)))
      rw [splitCW_nonws_cons hc hrec]

/-- Prepending non-separator characters extends the first class. -/
theorem splitCW_append_nonws :
    ∀ (t l : List Char), (∀ ch ∈ t, isWsClass ch = false) →
      ∀ (h : Tok) (tl ws : List Tok), splitCW l = (h :: tl, ws) →
      splitCW (t ++ l) = ((t ++ h) :: tl, ws) := by
  intro t
  induction t with
  | nil => intro l _ h tl ws hl; simpa using hl
  | cons c rest ih =>
    intro l hall h tl ws hl
    have hc : isWsClass c = false := hall c (List.mem_cons_self _ _)
    have hrec := ih l (fun ch hch => hall ch (List.mem_cons.mpr (Or.inr hch))) h tl ws hl
    rw [List.cons_append]
    rw [splitCW_nonws_cons hc hrec]
    rfl

/-- Round trip: splitting a single-space join of non-empty,
    non-separator tokens recovers the tokens with single-space runs. -/
theorem splitCW_joinSp :
    ∀ ts : List Tok, ts ≠ [] →
      (∀ t ∈ ts, t ≠ [] ∧ ∀ ch ∈ t, isWsClass ch = false) →
      splitCW (joinSp ts) = (ts, List.replicate (ts.length - 1) [' ']) := by
  intro ts
  induction ts with
  | nil => intro h; exact absurd rfl h
  | cons t rest ih =>
    intro _ hall
    obtain ⟨htne, htnw⟩ := hall t (List.mem_cons_self _ _)
    cases rest with
    | nil =>
      show splitCW t = _
      rw [splitCW_nonws_single t htne htnw]
      rfl
    | cons u rest2 =>
      have hrec := ih (by simp) (fun x hx => hall x (List.mem_cons.mpr (Or.inr hx)))
      obtain ⟨hune, _⟩ := hall u (by simp)
      rw [joinSp_cons_cons]
      -- first split the space-led remainder
      have hsp : splitCW (' ' :: joinSp (u :: rest2)) =
          ([] :: u :: rest2, [' '] :: List.replicate ((u :: rest2).length - 1) [' ']) := by
        refine splitCW_ws_new (by decide) hrec (Or.inl ?_)
        intro cs' hcs
        exact hune ((List.cons.injEq u rest2 [] cs').mp hcs).1
      have happ := splitCW_append_nonws t (' ' :: joinSp (u :: rest2)) htnw
        ([] : Tok) (u :: rest2)
        ([' '] :: List.replicate ((u :: rest2).length - 1) [' ']) hsp
      rw [happ, List.append_nil]
      simp [List.replicate_succ]

/-- If the empty token heads the class list and is unknown to the oracle,
    it heads the sorted list as well (it is the first of the unknown-rank
    tie class, which precedes everything else). -/
theorem reorder_head_empty (cl : List Tok) (o : Tok → Option Int)
    (ho : o [] = none) (hh : cl.head? = some []) :
    (reorderClasses cl o).head? = some ([], none) := by
  obtain ⟨c0, cltail, rfl⟩ : ∃ c0 t, cl = c0 :: t := by
    cases cl with
    | nil => simp at hh
    | cons a t => exact ⟨a, t, rfl⟩
  simp only [List.head?_cons, Option.some.injEq] at hh
  subst hh
  have hfilter := jsSort_filter twCmp twCmp_asym twCmp_trans
    (fun x => !isSentinel x.1 && decide (x.2 = (none : Option Int)))
    (fun a b ha hb => twCmp_tie (r := none) a b ha hb)
    (fun a b y ha hb => twCmp_tie_congr (r := none) a b y ha hb)
    ((([] : Tok) :: cltail).map (fun c => (c, o c)))
  have hfilter2 : (reorderClasses ([] :: cltail) o).filter
      (fun x => !isSentinel x.1 && decide (x.2 = (none : Option Int))) =
      ((([] : Tok) :: cltail).map (fun c => (c, o c))).filter
        (fun x => !isSentinel x.1 && decide (x.2 = (none : Option Int))) := hfilter
  have hperm := reorderClasses_perm ([] :: cltail) o
  have hne : reorderClasses ([] :: cltail) o ≠ [] := by
    intro h
    have hl := hperm.length_eq
    rw [h] at hl
    simp at hl
  obtain ⟨z, Z, hz⟩ := List.exists_cons_of_ne_nil hne
  have hpairZ := reorderClasses_pairwise ([] :: cltail) o
  rw [hz] at hpairZ hperm hfilter2
  have hmem0 : (([] : Tok), (none : Option Int)) ∈ z :: Z := by
    refine hperm.mem_iff.mpr ?_
    exact List.mem_map.mpr ⟨[], List.mem_cons_self _ _, by rw [ho]⟩
  have hzns : isSentinel z.1 = false := by
    by_contra hzs
    rw [Bool.not_eq_false] at hzs
    have hall : ∀ w ∈ z :: Z, isSentinel w.1 = true := by
      intro w hw
      rcases List.mem_cons.mp hw with rfl | hw
      · exact hzs
      · have hrel := (List.pairwise_cons.mp hpairZ).1 w hw
        by_contra hws
        rw [Bool.not_eq_true] at hws
        rw [twCmp_eq, if_neg (by simp [hws]), if_pos hzs] at hrel
        omega
    have := hall ([], none) hmem0
    simp [isSentinel] at this
  have hzn : z.2 = none := by
    by_contra hzn
    have hmemZ : (([] : Tok), (none : Option Int)) ∈ Z := by
      rcases List.mem_cons.mp hmem0 with he | hm
      · exact absurd (by rw [← he] : z.2 = (none : Option Int)) hzn
      · exact hm
    have hrel := (List.pairwise_cons.mp hpairZ).1 ([], none) hmemZ
    rw [twCmp_eq, if_neg (by simp [isSentinel]), if_neg (by simp [hzns])] at hrel
    obtain ⟨k, hk⟩ := Option.ne_none_iff_exists'.mp hzn
    rw [hk] at hrel
    simp [rankCmp] at hrel
  have hpz : (!isSentinel z.1 && decide (z.2 = (none : Option Int))) = true := by
    simp [hzns, hzn]
  rw [List.filter_cons_of_pos
    (p := fun x : Tok × Option Int => !isSentinel x.1 && decide (x.2 = (none : Option Int)))
    hpz] at hfilter2
  have hph : (!isSentinel (([] : Tok), o []).1 &&
      decide ((([] : Tok), o []).2 = (none : Option Int))) = true := by
    rw [ho]
    simp [isSentinel]
  rw [List.map_cons, List.filter_cons_of_pos
    (p := fun x : Tok × Option Int => !isSentinel x.1 && decide (x.2 = (none : Option Int)))
    hph] at hfilter2
  have hzeq : z = ([], o []) := (List.cons.injEq _ _ _ _ ▸ hfilter2).1
  rw [hz, hzeq, ho]
  rfl

/-- The head of the dedup input is always kept (with an empty seen-set). -/
theorem dedupGo_head (l : List (Tok × Option Int)) (i0 : Nat) :
    (dedupGo l [] i0).1.head? = l.head? := by
  cases l with
  | nil => rfl
  | cons hd rest =>
    obtain ⟨t, r⟩ := hd
    simp only [dedupGo, List.not_mem_nil, if_false]
    rfl

theorem containsBB_cons_cons (a b : Char) (rest : List Char) :
    containsBB (a :: b :: rest) =
      ((decide (a = lbrace) && decide (b = lbrace)) || containsBB (b :: rest)) := rfl

theorem containsBB_cons_sp (r : List Char) : containsBB (' ' :: r) = containsBB r := by
  cases r with
  | nil => rfl
  | cons d e =>
    rw [containsBB_cons_cons, show decide (' ' = lbrace) = false by decide]
    simp

theorem containsBB_append_sp :
    ∀ (a r : List Char), containsBB a = false → containsBB (' ' :: r) = false →
      containsBB (a ++ ' ' :: r) = false := by
  intro a
  induction a with
  | nil => intro r _ hr; simpa using hr
  | cons c a2 ih =>
    intro r ha hr
    cases a2 with
    | nil =>
      show containsBB (c :: ' ' :: r) = false
      rw [containsBB_cons_cons, hr, show decide (' ' = lbrace) = false by decide]
      simp
    | cons d a3 =>
      rw [containsBB_cons_cons] at ha
      rcases Bool.or_eq_false_iff.mp ha with ⟨h1, h2⟩
      have hrec := ih r h2 hr
      show containsBB (c :: d :: (a3 ++ ' ' :: r)) = false
      rw [containsBB_cons_cons, h1]
      simpa using hrec

theorem containsBB_joinSp :
    ∀ ts : List Tok, (∀ t ∈ ts, containsBB t = false) →
      containsBB (joinSp ts) = false := by
  intro ts
  induction ts with
  | nil => intro _; rfl
  | cons t rest ih =>
    intro hall
    cases rest with
    | nil => exact hall t (by simp)
    | cons u rest2 =>
      rw [joinSp_cons_cons]
      refine containsBB_append_sp t (joinSp (u :: rest2)) (hall t (by simp)) ?_
      rw [containsBB_cons_sp]
      exact ih (fun x hx => hall x (List.mem_cons.mpr (Or.inr hx)))

theorem takeWhile_nil_of_head {p : Char → Bool} {l : List Char} {c : Char}
    (hh : l.head? = some c) (hc : p c = false) : l.takeWhile p = [] := by
  cases l with
  | nil => rfl
  | cons a t =>
    simp only [List.head?_cons, Option.some.injEq] at hh
    subst hh
    rw [List.takeWhile_cons, if_neg (by simp [hc])]

/-- The second pass: `sortClasses` is the identity on a canonical string —
    non-empty, marker-free, non-separator tokens joined by single spaces,
    already sorted (`Pairwise` under the comparator) and with no repeated
    known-rank text. -/
theorem sortClasses_joinSp_fixpoint (ts : List Tok) (o : Tok → Option Int)
    (hne : ts ≠ [])
    (htok : ∀ t ∈ ts, t ≠ [] ∧ (∀ ch ∈ t, isWsClass ch = false ∧ jsWs ch = false) ∧
      containsBB t = false)
    (hpairs : (ts.map (fun t => (t, o t))).Pairwise (fun u v => 0 ≤ twCmp v u))
    (hdedup : (ts.map (fun t => (t, o t))).Pairwise
      (fun x y => x.2.isSome = true → x.1 ≠ y.1)) :
    sortClasses (joinSp ts) o defaultOpts = joinSp ts := by
  obtain ⟨t0, ts', rfl⟩ : ∃ t0 ts', ts = t0 :: ts' := by
    cases ts with
    | nil => exact absurd rfl hne
    | cons a t => exact ⟨a, t, rfl⟩
  obtain ⟨ht0ne, ht0ch, _⟩ := htok t0 (by simp)
  obtain ⟨c0, t0r, rfl⟩ := List.exists_cons_of_ne_nil ht0ne
  have hhead : (joinSp ((c0 :: t0r) :: ts')).head? = some c0 := by
    rw [joinSp_head? (by simp)]
    rfl
  have hc0 := ht0ch c0 (by simp)
  have hjne : joinSp ((c0 :: t0r) :: ts') ≠ [] :=
    joinSp_ne_nil hne (fun t ht => (htok t ht).1)
  have hbb : containsBB (joinSp ((c0 :: t0r) :: ts')) = false :=
    containsBB_joinSp _ (fun t ht => (htok t ht).2.2)
  have hws : (joinSp ((c0 :: t0r) :: ts')).all isWsClass = false := by
    rw [List.all_eq_false]
    refine ⟨c0, ?_, by simp [hc0.1]⟩
    cases ts' with
    | nil => simp [joinSp]
    | cons u r2 => rw [joinSp_cons_cons]; simp
  rw [sortClasses_default_eq _ o hjne hbb hws]
  have hsplit := splitCW_joinSp ((c0 :: t0r) :: ts') hne
    (fun t ht => ⟨(htok t ht).1, fun ch hch => ((htok t ht).2.1 ch hch).1⟩)
  rw [hsplit]
  have hpop : popTrailingEmpty ((c0 :: t0r) :: ts') = (c0 :: t0r) :: ts' := by
    unfold popTrailingEmpty
    rw [if_neg ?_]
    intro hc
    exact (htok [] (mem_of_getLast?' hc)).1 rfl
  rw [hpop]
  have hord : reorderClasses ((c0 :: t0r) :: ts') o =
      ((c0 :: t0r) :: ts').map (fun t => (t, o t)) := jsSort_eq_self twCmp hpairs
  have hded := dedupGo_noremove (((c0 :: t0r) :: ts').map (fun t => (t, o t))) [] 0
    hdedup (by simp)
  have hcl : (sortClassList ((c0 :: t0r) :: ts') o true).classList =
      (c0 :: t0r) :: ts' := by
    simp only [sortClassList, hord, hded, if_true, List.map_map]
    rw [show (Prod.fst ∘ fun t : Tok => (t, o t)) = id from rfl, List.map_id]
  have hri : (sortClassList ((c0 :: t0r) :: ts') o true).removedIndices = [] := by
    simp only [sortClassList, hord, hded, if_true]
  rw [hcl, hri]
  simp only [List.map_replicate]
  rw [wsFilter_rem_nil]
  rw [stitch_sp_pred _ _ (by simp) (fun w hw => (List.mem_replicate.mp hw).2) ?hlen]
  case hlen =>
    rw [List.length_replicate]
    simp only [List.length_cons]
    omega
  have htrs : trimStartJS (joinSp ((c0 :: t0r) :: ts')) [] =
      joinSp ((c0 :: t0r) :: ts') := by
    rw [trimStartJS_nilrep]
    exact dropWhile_of_head_false hhead hc0.2
  rw [htrs]
  -- trailing trim: the last character is the last of the last token
  obtain ⟨tl, htl⟩ : ∃ tl, ((c0 :: t0r) :: ts').getLast? = some tl :=
    ⟨_, List.getLast?_eq_getLast _ (by simp)⟩
  have htlmem := mem_of_getLast?' htl
  obtain ⟨htlne, htlch, _⟩ := htok tl htlmem
  obtain ⟨cl, hcl2⟩ : ∃ cl, tl.getLast? = some cl :=
    ⟨_, List.getLast?_eq_getLast _ htlne⟩
  have hjl : (joinSp ((c0 :: t0r) :: ts')).getLast? = some cl := by
    rw [joinSp_getLast? _ tl htl htlne]
    exact hcl2
  rw [trimEndJS_nilrep]
  rw [dropWhile_of_head_false (by rw [List.head?_reverse]; exact hjl)
    (htlch cl (mem_of_getLast?' hcl2)).2]
  simp

theorem pairs_eq_map (o : Tok → Option Int) :
    ∀ l : List (Tok × Option Int), (∀ x ∈ l, x.2 = o x.1) →
      (l.map Prod.fst).map (fun t => (t, o t)) = l := by
  intro l
  induction l with
  | nil => intro _; rfl
  | cons hd rest ih =>
    obtain ⟨t, r⟩ := hd
    intro h
    have hr : r = o t := h (t, r) (List.mem_cons_self _ _)
    simp only [List.map_cons]
    rw [ih (fun x hx => h x (List.mem_cons.mpr (Or.inr hx))), ← hr]

/-- The first pass of `sortClasses` (main branch, default options, an
    oracle not ranking the empty string, every character either a
    separator-class character or not JS whitespace) produces a canonical
    string: non-empty tokens joined by single spaces, sorted, with no
    repeated known-rank text. -/
theorem sortClasses_canonical (s : List Char) (o : Tok → Option Int)
    (hs : s ≠ []) (hbb : containsBB s = false) (hws : s.all isWsClass = false)
    (ho : o [] = none)
    (hchar : ∀ c ∈ s, isWsClass c = true ∨ jsWs c = false) :
    ∃ ts : List Tok, ts ≠ [] ∧
      (∀ t ∈ ts, t ≠ [] ∧ (∀ ch ∈ t, isWsClass ch = false ∧ jsWs ch = false) ∧
        containsBB t = false) ∧
      (ts.map (fun t => (t, o t))).Pairwise (fun u v => 0 ≤ twCmp v u) ∧
      (ts.map (fun t => (t, o t))).Pairwise
        (fun x y => x.2.isSome = true → x.1 ≠ y.1) ∧
      sortClasses s o defaultOpts = joinSp ts := by
  classical
  set C := (splitCW s).1 with hC
  set W := (splitCW s).2 with hW
  set classes1 := popTrailingEmpty C with hclasses1
  set sorted := reorderClasses classes1 o with hsorted
  set kept := (dedupGo sorted [] 0).1 with hkept
  set rem := (dedupGo sorted [] 0).2 with hrem
  set cl := kept.map Prod.fst with hcl
  -- basic lengths
  have hlenCW : C.length = W.length + 1 := splitCW_len s
  have hpermS : sorted.Perm (classes1.map (fun t => (t, o t))) :=
    reorderClasses_perm classes1 o
  have hlenS : sorted.length = classes1.length := by
    rw [hpermS.length_eq, List.length_map]
  have hsubK : kept.Sublist sorted := dedupGo_kept_sublist sorted [] 0
  have hlensum : kept.length + rem.length = sorted.length := dedupGo_lengths sorted [] 0
  have hc1sub : classes1.Sublist C := popTrailing_sublist C
  -- the non-empty witness token
  obtain ⟨tokN, htokNC, htokNne⟩ := splitCW_exists_nonempty s hws
  have htokN1 : tokN ∈ classes1 := popTrailing_mem_of_ne htokNC htokNne
  have hc1ne : classes1 ≠ [] := fun h => by rw [h] at htokN1; simp at htokN1
  -- membership transfer: every kept entry is a ranked classes1 token
  have hmemK : ∀ x ∈ kept, x.1 ∈ classes1 ∧ x.2 = o x.1 := by
    intro x hx
    exact reorderClasses_mem (hsubK.subset hx)
  have hkeq : cl.map (fun t => (t, o t)) = kept :=
    pairs_eq_map o kept (fun x hx => (hmemK x hx).2)
  have hpairsK : kept.Pairwise (fun u v => 0 ≤ twCmp v u) :=
    (reorderClasses_pairwise classes1 o).sublist hsubK
  have hdedupK : kept.Pairwise (fun x y => x.2.isSome = true → x.1 ≠ y.1) :=
    dedupGo_kept_pairwise sorted [] 0
  -- token-level properties of every class-list member
  have hclprops : ∀ tok ∈ cl, (∀ ch ∈ tok, isWsClass ch = false ∧ jsWs ch = false) ∧
      containsBB tok = false := by
    intro tok htok
    obtain ⟨x, hx, hfst⟩ := List.mem_map.mp htok
    have hx1 : x.1 ∈ classes1 := (hmemK x hx).1
    have hxC : x.1 ∈ C := hc1sub.subset hx1
    have hchs : ∀ ch ∈ x.1, isWsClass ch = false := splitCW_classes_nonws s x.1 hxC
    have hinf : x.1.IsInfix s := splitCW_classes_within s x.1 hxC
    subst hfst
    refine ⟨?_, ?_⟩
    · intro ch hch
      have h1 := hchs ch hch
      have h2 : ch ∈ s := hinf.subset hch
      rcases hchar ch h2 with h3 | h3
      · rw [h1] at h3; exact absurd h3 (by simp)
      · exact ⟨h1, h3⟩
    · by_contra hcb
      rw [Bool.not_eq_false] at hcb
      rw [containsBB_mono x.1 s hinf hcb] at hbb
      exact absurd hbb (by decide)
  -- removed-index bounds
  have hrembd : ∀ n ∈ rem, 1 ≤ n ∧ n ≤ W.length := by
    intro n hn
    obtain ⟨k, x, hnk, hkx, hcond⟩ := (dedupGo_removed_iff sorted [] 0 n).mp hn
    have hkl : k < sorted.length := by
      obtain ⟨hklt, _⟩ := List.getElem?_eq_some_iff.mp hkx
      exact hklt
    constructor
    · rcases hcond with hseen | ⟨j, y, hj, _, _, _⟩
      · simp at hseen
      · omega
    · have h1 : classes1.length ≤ C.length := hc1sub.length_le
      omega
  have hremnd : rem.Nodup :=
    (dedupGo_removed_sorted sorted [] 0).nodup
  -- collapsed whitespace list and its filtered length
  have hws1all : ∀ w ∈ W.map (fun _ => ([' '] : Tok)), w = [' '] := by
    intro w hw
    obtain ⟨_, _, h⟩ := List.mem_map.mp hw
    exact h.symm
  have hws1len : (W.map (fun _ => ([' '] : Tok))).length = W.length := List.length_map _ _
  have hwsF : (wsFilter (W.map (fun _ => ([' '] : Tok))) rem).length =
      W.length - rem.length := by
    rw [wsFilter_length _ rem hremnd (by rw [hws1len]; exact hrembd)]
    rw [hws1len]
  have hwsFall : ∀ w ∈ wsFilter (W.map (fun _ => ([' '] : Tok))) rem, w = [' '] :=
    fun w hw => hws1all w (wsFilter_subset _ _ w hw)
  -- class-list length and non-emptiness
  have hlencl : cl.length = kept.length := List.length_map _ _
  have hkne : kept ≠ [] := by
    intro h
    have hne2 : sorted ≠ [] := by
      intro h2
      rw [h2] at hlenS
      simp only [List.length_nil] at hlenS
      exact hc1ne (List.length_eq_zero.mp hlenS.symm)
    obtain ⟨z, Z, hz⟩ := List.exists_cons_of_ne_nil hne2
    have := dedupGo_head sorted 0
    rw [← hkept, h, hz] at this
    simp at this
  have hclne : cl ≠ [] := by
    intro h
    rw [hcl, List.map_eq_nil_iff] at h
    exact hkne h
  -- the classes1 length dichotomy and stitch shape
  have hrle : rem.length ≤ sorted.length := by omega
  have hstitch : stitch cl (wsFilter (W.map (fun _ => ([' '] : Tok))) rem) = joinSp cl ∨
      stitch cl (wsFilter (W.map (fun _ => ([' '] : Tok))) rem) = joinSp cl ++ [' '] := by
    by_cases hpopped : C.getLast? = some ([] : Tok)
    · -- popped: one fewer class than split classes, as many ws runs as classes
      have hlc1 : classes1.length + 1 = C.length := by
        rw [hclasses1]
        unfold popTrailingEmpty
        rw [if_pos hpopped, List.length_dropLast]
        have : C ≠ [] := splitCW_fst_ne_nil s
        have := List.length_pos.mpr this
        omega
      refine Or.inr (stitch_sp_eq cl _ hclne hwsFall ?_)
      rw [hwsF, hlencl]
      omega
    · have hlc1 : classes1.length = C.length := by
        rw [hclasses1]
        unfold popTrailingEmpty
        rw [if_neg hpopped]
      refine Or.inl (stitch_sp_pred cl _ hclne hwsFall ?_)
      rw [hwsF, hlencl]
      have hkpos : 0 < kept.length := List.length_pos.mpr hkne
      omega
  -- the final trims: a uniform strip lemma application
  have hstep : sortClasses s o defaultOpts =
      trimEndJS (trimStartJS
        (stitch cl (wsFilter (W.map (fun _ => ([' '] : Tok))) rem)) []) [] := by
    rw [sortClasses_default_eq s o hs hbb hws]
    rfl
  -- case: does the class list start with the empty token?
  by_cases hE : ([] : Tok) ∈ classes1
  · -- the empty token heads everything
    obtain ⟨h0, ctail, hc1shape⟩ := List.exists_cons_of_ne_nil hc1ne
    have h0e : h0 = [] := by
      rcases List.mem_cons.mp (hc1shape ▸ hE) with h | h
      · exact h.symm
      · exfalso
        refine popTrailing_tail_ne s [] ?_ rfl
        rw [← hclasses1, hc1shape]
        simpa using h
    have hhead1 : classes1.head? = some [] := by
      rw [hc1shape, h0e]
      rfl
    have hheadS : sorted.head? = some ([], none) :=
      reorder_head_empty classes1 o ho hhead1
    have hheadK : kept.head? = some ([], none) := by
      rw [hkept, dedupGo_head sorted 0, hheadS]
    obtain ⟨k0, kt, hksh⟩ := List.exists_cons_of_ne_nil hkne
    have hk0 : k0 = ([], none) := by
      rw [hksh] at hheadK
      simpa using hheadK
    have hclshape : cl = [] :: kt.map Prod.fst := by
      rw [hcl, hksh, hk0]
      rfl
    set ts := kt.map Prod.fst with hts
    -- `[]` occurs only once in `classes1`, so not in `ts`
    have hcount1 : classes1.countP (fun t => decide (t = ([] : Tok))) = 1 := by
      rw [hc1shape, h0e, List.countP_cons]
      have hz : ctail.countP (fun t => decide (t = ([] : Tok))) = 0 := by
        rw [List.countP_eq_zero]
        intro a hmem hp
        simp only [decide_eq_true_eq] at hp
        subst hp
        refine popTrailing_tail_ne s [] ?_ rfl
        rw [← hclasses1, hc1shape]
        simpa using hmem
      rw [hz, if_pos (by decide)]
    have hcountcl : cl.countP (fun t => decide (t = ([] : Tok))) ≤ 1 := by
      have h1 : cl.Sublist (sorted.map Prod.fst) := hsubK.map Prod.fst
      have h2 : (sorted.map Prod.fst).Perm classes1 := by
        have h3 := hpermS.map Prod.fst
        rw [List.map_map,
          show (Prod.fst ∘ fun t : Tok => (t, o t)) = id from rfl, List.map_id] at h3
        exact h3
      calc cl.countP (fun t => decide (t = ([] : Tok)))
          ≤ (sorted.map Prod.fst).countP (fun t => decide (t = ([] : Tok))) :=
            h1.countP_le _
        _ = classes1.countP (fun t => decide (t = ([] : Tok))) := h2.countP_eq _
        _ = 1 := hcount1
    have htsE : ([] : Tok) ∉ ts := by
      intro hmem
      rw [hclshape] at hcountcl
      have hccons : List.countP (fun t => decide (t = ([] : Tok))) ([] :: ts) =
          List.countP (fun t => decide (t = ([] : Tok))) ts + 1 := by
        rw [List.countP_cons]
        simp
      rw [hccons] at hcountcl
      have hpos : 0 < List.countP (fun t => decide (t = ([] : Tok))) ts :=
        List.countP_pos_iff.mpr ⟨[], hmem, by decide⟩
      omega
    have htsprops : ∀ t ∈ ts, t ≠ [] ∧
        (∀ ch ∈ t, isWsClass ch = false ∧ jsWs ch = false) ∧ containsBB t = false := by
      intro t ht
      have htcl : t ∈ cl := by rw [hclshape]; exact List.mem_cons.mpr (Or.inr ht)
      refine ⟨fun h => htsE (h ▸ ht), (hclprops t htcl).1, (hclprops t htcl).2⟩
    -- `ts` is non-empty: the non-empty witness lands in it
    have htsne : ts ≠ [] := by
      have hpairN : (tokN, o tokN) ∈ sorted := by
        refine hpermS.mem_iff.mpr ?_
        exact List.mem_map.mpr ⟨tokN, htokN1, rfl⟩
      rcases dedupGo_coverage sorted [] 0 (tokN, o tokN) hpairN with hseen | ⟨y, hy, hyx⟩
      · simp at hseen
      · intro h
        have hmm : y.1 ∈ cl := List.mem_map.mpr ⟨y, hy, rfl⟩
        rw [hclshape, h] at hmm
        have hyx2 : y.1 = tokN := hyx
        exact htokNne (hyx2.symm.trans (List.mem_singleton.mp hmm))
    -- map equality for the sort/dedup invariants
    have htspairs : ts.map (fun t => (t, o t)) = kt := by
      have := hkeq
      rw [hclshape, hksh, hk0] at this
      simp only [List.map_cons] at this
      rw [ho] at this
      exact (List.cons.injEq _ _ _ _ ▸ this).2
    -- assemble
    obtain ⟨u0, ts2, htssh⟩ := List.exists_cons_of_ne_nil htsne
    obtain ⟨cu, u0r, hu0⟩ := List.exists_cons_of_ne_nil (htsprops u0 (htssh ▸ List.mem_cons_self _ _)).1
    have hXhead : (joinSp ts).head? = some cu := by
      rw [htssh, joinSp_head? (by rw [hu0]; simp), hu0]
      rfl
    have hcu : jsWs cu = false := by
      have := ((htsprops u0 (htssh ▸ List.mem_cons_self _ _)).2.1 cu (by rw [hu0]; simp)).2
      exact this
    obtain ⟨tl, htl⟩ : ∃ tl, ts.getLast? = some tl :=
      ⟨_, List.getLast?_eq_getLast _ htsne⟩
    have htlprops := htsprops tl (mem_of_getLast?' htl)
    obtain ⟨cltl, hcltl⟩ : ∃ c, tl.getLast? = some c :=
      ⟨_, List.getLast?_eq_getLast _ htlprops.1⟩
    have hXlast : (joinSp ts).getLast? = some cltl := by
      rw [joinSp_getLast? ts tl htl htlprops.1]
      exact hcltl
    have hcltlw : jsWs cltl = false := (htlprops.2.1 cltl (mem_of_getLast?' hcltl)).2
    have hjoincl : joinSp cl = ' ' :: joinSp ts := by
      rw [hclshape, htssh, joinSp_cons_cons]
      rfl
    refine ⟨ts, htsne, htsprops, ?_, ?_, ?_⟩
    · rw [htspairs]
      exact hpairsK.sublist (by rw [hksh]; exact List.sublist_cons_self _ _)
    · rw [htspairs]
      exact hdedupK.sublist (by rw [hksh]; exact List.sublist_cons_self _ _)
    · rw [hstep]
      rcases hstitch with hst | hst <;> rw [hst, hjoincl]
      · rw [trimStartJS_nilrep, List.dropWhile_cons, if_pos (by decide),
          dropWhile_of_head_false hXhead hcu]
        simpa using trimEndJS_strip [] (joinSp ts) [] hXlast hcltlw (by simp)
      · rw [show (' ' :: joinSp ts) ++ [' '] = ' ' :: (joinSp ts ++ [' ']) from rfl]
        rw [trimStartJS_nilrep, List.dropWhile_cons, if_pos (by decide)]
        have happh : (joinSp ts ++ [' ']).head? = some cu := by
          rw [List.head?_append, hXhead]
          rfl
        rw [dropWhile_of_head_false happh hcu]
        simpa using trimEndJS_strip [] (joinSp ts) [' '] hXlast hcltlw (by decide)
  · -- no empty token anywhere: the class list itself is canonical
    have htsE : ∀ t ∈ cl, t ≠ [] := by
      intro t ht he
      subst he
      obtain ⟨x, hx, hfst⟩ := List.mem_map.mp ht
      exact hE (hfst ▸ (hmemK x hx).1)
    have htsprops : ∀ t ∈ cl, t ≠ [] ∧
        (∀ ch ∈ t, isWsClass ch = false ∧ jsWs ch = false) ∧ containsBB t = false :=
      fun t ht => ⟨htsE t ht, (hclprops t ht).1, (hclprops t ht).2⟩
    obtain ⟨u0, ts2, htssh⟩ := List.exists_cons_of_ne_nil hclne
    obtain ⟨cu, u0r, hu0⟩ := List.exists_cons_of_ne_nil (htsprops u0 (htssh ▸ List.mem_cons_self _ _)).1
    have hXhead : (joinSp cl).head? = some cu := by
      rw [htssh, joinSp_head? (by rw [hu0]; simp), hu0]
      rfl
    have hcu : jsWs cu = false :=
      ((htsprops u0 (htssh ▸ List.mem_cons_self _ _)).2.1 cu (by rw [hu0]; simp)).2
    obtain ⟨tl, htl⟩ : ∃ tl, cl.getLast? = some tl :=
      ⟨_, List.getLast?_eq_getLast _ hclne⟩
    have htlprops := htsprops tl (mem_of_getLast?' htl)
    obtain ⟨cltl, hcltl⟩ : ∃ c, tl.getLast? = some c :=
      ⟨_, List.getLast?_eq_getLast _ htlprops.1⟩
    have hXlast : (joinSp cl).getLast? = some cltl := by
      rw [joinSp_getLast? cl tl htl htlprops.1]
      exact hcltl
    have hcltlw : jsWs cltl = false := (htlprops.2.1 cltl (mem_of_getLast?' hcltl)).2
    refine ⟨cl, hclne, htsprops, ?_, ?_, ?_⟩
    · rw [hkeq]
      exact hpairsK
    · rw [hkeq]
      exact hdedupK
    · rw [hstep]
      rcases hstitch with hst | hst <;> rw [hst]
      · rw [trimStartJS_nilrep, dropWhile_of_head_false hXhead hcu]
        simpa using trimEndJS_strip [] (joinSp cl) [] hXlast hcltlw (by simp)
      · rw [trimStartJS_nilrep]
        have happh : (joinSp cl ++ [' ']).head? = some cu := by
          rw [List.head?_append, hXhead]
          rfl
        rw [dropWhile_of_head_false happh hcu]
        simpa using trimEndJS_strip [] (joinSp cl) [' '] hXlast hcltlw (by decide)

/-- An oracle assigning a rank to the empty string, for the C8
    counterexample (the claim quantifies over *any* oracle). -/
def oC8 : Tok → Option Int := fun t =>
  if t = "a".toList then some 1 else if t = [] then some 2
  else if t = "b".toList then some 3 else none

/-- C8 counterexample: with an oracle that ranks the empty string,
    `sortClasses` is not idempotent: `" b a"` normalizes to `"a  b"`
    (the phantom empty token produced by the leading space is ranked, so
    it is sorted between `a` and `b` and both whitespace runs survive),
    and a second pass yields `"a b"`. -/
theorem C8_counterexample :
    sortClasses (" b a".toList) oC8 defaultOpts = "a  b".toList ∧
    sortClasses (sortClasses (" b a".toList) oC8 defaultOpts) oC8 defaultOpts =
      "a b".toList ∧
    sortClasses (sortClasses (" b a".toList) oC8 defaultOpts) oC8 defaultOpts ≠
      sortClasses (" b a".toList) oC8 defaultOpts :=
  ⟨by decide, by decide, by decide⟩

/-- C8 amended: under the default options, `sortClasses` is idempotent for
    every oracle that does not rank the empty string, on every string
    whose characters are each either in the split class `[\t\r\f\n ]` or
    not JavaScript whitespace.  (Both restrictions are necessary: ranking
    the empty string, or characters such as `\v` that `\s` matches but
    the split class does not, give counterexamples.) -/
theorem C8_idempotent (s : List Char) (o : Tok → Option Int)
    (ho : o [] = none)
    (hchar : ∀ c ∈ s, isWsClass c = true ∨ jsWs c = false) :
    sortClasses (sortClasses s o defaultOpts) o defaultOpts =
      sortClasses s o defaultOpts := by
  by_cases hs : s = []
  · subst hs
    have h1 : sortClasses [] o defaultOpts = [] := by
      simp [sortClasses]
    rw [h1, h1]
  · by_cases hbb : containsBB s = true
    · have h1 : sortClasses s o defaultOpts = s := by
        simp only [sortClasses]
        rw [if_neg hs, if_pos hbb]
      rw [h1]
      exact h1
    · rw [Bool.not_eq_true] at hbb
      by_cases hws : s.all isWsClass = true
      · have h1 : sortClasses s o defaultOpts = [' '] := by
          simp only [sortClasses]
          rw [if_neg hs, if_neg (by simp [hbb]),
            if_pos (by simp [hws, defaultOpts, normalizeCW])]
        have h2 : sortClasses [' '] o defaultOpts = [' '] := by
          simp only [sortClasses]
          rw [if_neg (by simp), if_neg (by decide), if_pos (by decide)]
        rw [h1, h2]
      · rw [Bool.not_eq_true] at hws
        obtain ⟨ts, htsne, htok, hpairs, hdedup, heq⟩ :=
          sortClasses_canonical s o hs hbb hws ho hchar
        rw [heq]
        exact sortClasses_joinSp_fixpoint ts o htsne htok hpairs hdedup

/-- A rank-only oracle for the C8 witness. -/
def oC8w : Tok → Option Int := fun t =>
  if t = "a".toList then some 1 else if t = "b".toList then some 2 else none

/-- Witness for the amended C8 at a concrete input. -/
theorem C8_idempotent_witness :
    (oC8w [] = none) ∧
    (∀ c ∈ "b a".toList, isWsClass c = true ∨ jsWs c = false) ∧
    sortClasses (sortClasses ("b a".toList) oC8w defaultOpts) oC8w defaultOpts =
      sortClasses ("b a".toList) oC8w defaultOpts :=
  ⟨rfl, by decide, C8_idempotent ("b a".toList) oC8w rfl (by decide)⟩

end TwSorter
